import Mathlib

/-!
Verification development for the hillas_reco / pylast image-processing
pipeline.  The definitions below are shallow embeddings of the C++ source:
real-valued images and thresholds are modelled by rationals, Eigen boolean
vectors by functions Nat → Bool evaluated below the pixel count, and the
sparse 0/1 neighbor matrix by a Bool-valued adjacency function.
-/

set_option maxRecDepth 10000

/-- Camera geometry: number of pixels and the 0/1 neighbor adjacency matrix
(entry (i,j) = true iff pixel j is a neighbor of pixel i). -/
structure CameraGeometry where
  num_pixels : Nat
  neigh : Nat → Nat → Bool

/-- Row i of the sparse matrix-vector product neigh_matrix * mask.cast(int):
the number of pixels j with neigh i j = true and mask j = true. -/
def countNeighbors (g : CameraGeometry) (s : Nat → Bool) (i : Nat) : Nat :=
  (List.range g.num_pixels).countP (fun j => g.neigh i j && s j)

/-- Embedding of TailcutsCleaner::tailcuts_clean (ImageCleaner.cpp).  The
Eigen expressions are translated expression by expression:
pixel_above_picture, pixel_in_picture, pixel_above_boundary,
pixel_with_picture_neighbors, pixel_with_boundary_neighbors. -/
def tailcuts_clean (g : CameraGeometry) (image : Nat → ℚ)
    (picture_thresh boundary_thresh : ℚ) (keep_isolated_pixels : Bool)
    (min_number_picture_neighbors : Int) (i : Nat) : Bool :=
  let pixel_above_picture : Nat → Bool := fun j => decide (picture_thresh ≤ image j)
  let pixel_in_picture : Nat → Bool :=
    if keep_isolated_pixels || decide (min_number_picture_neighbors = 0) then
      pixel_above_picture
    else
      fun j => pixel_above_picture j &&
        decide (min_number_picture_neighbors ≤ (countNeighbors g pixel_above_picture j : Int))
  let pixel_above_boundary : Nat → Bool := fun j => decide (boundary_thresh ≤ image j)
  let pixel_with_picture_neighbors : Nat → Bool :=
    fun j => decide (0 < countNeighbors g pixel_in_picture j)
  if keep_isolated_pixels then
    (pixel_above_boundary i && pixel_with_picture_neighbors i) || pixel_in_picture i
  else
    let pixel_with_boundary_neighbors : Nat → Bool :=
      fun j => decide (0 < countNeighbors g pixel_above_boundary j)
    (pixel_above_boundary i && pixel_with_picture_neighbors i) ||
      (pixel_in_picture i && pixel_with_boundary_neighbors i)

/-- Embedding of dilate (ImageCleaner.cpp): mask OR has_true_neighbor. -/
def dilate (g : CameraGeometry) (mask : Nat → Bool) (i : Nat) : Bool :=
  mask i || decide (0 < countNeighbors g mask i)

/-- The maximum image value used by tailcuts_clean2: image.maxCoeff() when
the image is nonempty, 0 otherwise. -/
def imageMaxOrZero (g : CameraGeometry) (image : Nat → ℚ) : ℚ :=
  if g.num_pixels = 0 then 0
  else ((List.range g.num_pixels).map image).foldl max (image 0)

/-- Embedding of TailcutsCleaner::tailcuts_clean2 (ImageCleaner.cpp): the
thresholds are chosen automatically from the image maximum and the instance
parameters are forwarded to tailcuts_clean. -/
def tailcuts_clean2 (g : CameraGeometry) (image : Nat → ℚ)
    (keep_isolated_pixels : Bool) (min_number_picture_neighbors : Int)
    (i : Nat) : Bool :=
  let maxval := imageMaxOrZero g image
  let picture_auto := max 10 (maxval / 10)
  let boundary_auto := max 5 (maxval / 20)
  tailcuts_clean g image picture_auto boundary_auto keep_isolated_pixels
    min_number_picture_neighbors i

/-! Spec-side definitions for the four-step set algorithm of section 4.1 of
the specification.  These follow the wording of the spec, to be compared
with the code embedding above (claim C1). -/

/-- Spec: P, the picture candidates.  Membership of pixel i in the set
of pixels with image value at least the threshold t. -/
def specAbove (image : Nat → ℚ) (t : ℚ) (i : Nat) : Bool :=
  decide (t ≤ image i)

/-- Spec: the cardinality of N(i) ∩ S, where N(i) is the neighbor set of
pixel i taken from the adjacency matrix. -/
def specInterCount (g : CameraGeometry) (S : Nat → Bool) (i : Nat) : Nat :=
  (List.range g.num_pixels).countP (fun j => g.neigh i j && S j)

/-- Spec: neighbors_of(S), the set of pixels with at least one neighbor in
S. -/
def specNeighborsOf (g : CameraGeometry) (S : Nat → Bool) (i : Nat) : Bool :=
  decide (0 < specInterCount g S i)

/-- Spec: the set P-prime of step 2 of the algorithm. -/
def specPprime (g : CameraGeometry) (image : Nat → ℚ) (picture_thresh : ℚ)
    (keep_isolated_pixels : Bool) (min_number_picture_neighbors : Int)
    (i : Nat) : Bool :=
  if keep_isolated_pixels || decide (min_number_picture_neighbors = 0) then
    specAbove image picture_thresh i
  else
    specAbove image picture_thresh i &&
      decide (min_number_picture_neighbors ≤
        (specInterCount g (specAbove image picture_thresh) i : Int))

/-- Spec: the four-step result of section 4.1. -/
def specTailcuts (g : CameraGeometry) (image : Nat → ℚ)
    (picture_thresh boundary_thresh : ℚ) (keep_isolated_pixels : Bool)
    (min_number_picture_neighbors : Int) (i : Nat) : Bool :=
  let Pp := specPprime g image picture_thresh keep_isolated_pixels
    min_number_picture_neighbors
  let B := specAbove image boundary_thresh
  if keep_isolated_pixels then
    (B i && specNeighborsOf g Pp i) || Pp i
  else
    (B i && specNeighborsOf g Pp i) || (Pp i && specNeighborsOf g B i)

/-- Concrete 4x4 square-pixel camera of the tests.  Modelled from the spec:
the CameraGeometry constructor (neighbor matrix construction) is not part of
the provided sources; the spec states that for pix_type 2 two pixels are
neighbors iff their center distance is at most 1.4 times the square root of
the maximal pixel area (here 1.4), with zero diagonal.  Pixel i sits at
integer coordinates (i mod 4, i div 4), so neighbors are exactly the pixels
at squared distance 1 (the 1.96 threshold excludes diagonals). -/
def camera4 : CameraGeometry where
  num_pixels := 16
  neigh := fun i j =>
    let dx : Int := (i % 4 : Int) - (j % 4 : Int)
    let dy : Int := (i / 4 % 4 : Int) - (j / 4 % 4 : Int)
    decide (i < 16) && decide (j < 16) && !decide (i = j) &&
      decide (25 * (dx * dx + dy * dy) ≤ 49)

/-- Image of the isolated-peak claim C2 as stated: all zeros except pixel 10
with value 10. -/
def soloZeroImage : Nat → ℚ := fun i => if i = 10 then 10 else 0

/-- Image of the SOLO_ABOVE_THRESHOLD test: constant 5 except pixel 10 with
value 10. -/
def soloFiveImage : Nat → ℚ := fun i => if i = 10 then 10 else 5

/-- The list of pixels selected by a mask on a camera. -/
def maskList (g : CameraGeometry) (mask : Nat → Bool) : List Nat :=
  (List.range g.num_pixels).filter mask

/-! DataWriter routing (DataWriter.cpp).  The event layers are modelled as
options; the simulated-camera layer only matters through simulation.tels, so
the simulation layer carries its telescope count.  The outcome of
DataWriter::operator() is the ordered list of backend write calls, or an
error when the code dereferences an absent optional layer. -/

/-- The simulation layer of an ArrayEvent, reduced to what the writer
inspects: the number of entries of simulation.tels. -/
structure SimulationLayer where
  telsCount : Nat
deriving DecidableEq

/-- The optional data layers of an ArrayEvent that DataWriter routes. -/
structure ArrayEventW where
  simulation : Option SimulationLayer
  r0 : Option Unit
  r1 : Option Unit
  dl0 : Option Unit
  dl1 : Option Unit
  dl2 : Option Unit
  monitor : Option Unit
  pointing : Option Unit
deriving DecidableEq

/-- The write_* flags registered by DataWriter::registerParams. -/
structure DataWriterFlags where
  write_simulation_shower : Bool
  write_simulated_camera : Bool
  write_simulated_camera_image : Bool
  write_r0 : Bool
  write_r1 : Bool
  write_dl0 : Bool
  write_dl1 : Bool
  write_dl1_image : Bool
  write_dl2 : Bool
  write_monitor : Bool
  write_pointing : Bool
deriving DecidableEq

/-- The defaults of DataWriter::registerParams. -/
def defaultDataWriterFlags : DataWriterFlags :=
  ⟨true, true, false, false, false, false, true, false, true, false, false⟩

/-- One backend write invocation. -/
inductive WriteCall where
  | unique_write
  | simulation_shower
  | simulated_camera (withImage : Bool)
  | r0
  | r1
  | dl0
  | dl1 (withImage : Bool)
  | dl2
  | monitor
  | pointing
deriving DecidableEq

/-- Dereferencing an absent optional layer (undefined behavior in the
source). -/
inductive DerefError where
  | absent_simulation
deriving DecidableEq

/-- Embedding of DataWriter::operator() (DataWriter.cpp).  Every branch
guards with its flag and the has_value of the layer, except the
simulated-camera branch, which evaluates event.simulation->tels.size()
guarded only by the flag. -/
def dataWriterProcessEvent (f : DataWriterFlags) (hasWriter : Bool)
    (e : ArrayEventW) : Except DerefError (List WriteCall) :=
  if !hasWriter then Except.ok []
  else
    let c_shower := if f.write_simulation_shower && e.simulation.isSome then
      [WriteCall.simulation_shower] else []
    match (if f.write_simulated_camera then
        match e.simulation with
        | none => Except.error DerefError.absent_simulation
        | some s =>
          Except.ok (if 0 < s.telsCount then
            [WriteCall.simulated_camera f.write_simulated_camera_image]
          else [])
      else Except.ok []) with
    | Except.error err => Except.error err
    | Except.ok c_cam =>
      Except.ok ([WriteCall.unique_write] ++ c_shower ++ c_cam ++
        (if f.write_r0 && e.r0.isSome then [WriteCall.r0] else []) ++
        (if f.write_r1 && e.r1.isSome then [WriteCall.r1] else []) ++
        (if f.write_dl0 && e.dl0.isSome then [WriteCall.dl0] else []) ++
        (if f.write_dl1 && e.dl1.isSome then
          [WriteCall.dl1 f.write_dl1_image] else []) ++
        (if f.write_dl2 && e.dl2.isSome then [WriteCall.dl2] else []) ++
        (if f.write_monitor && e.monitor.isSome then
          [WriteCall.monitor] else []) ++
        (if f.write_pointing && e.pointing.isSome then
          [WriteCall.pointing] else []))

/-- An event carrying no optional layer at all (in particular no simulation
block), as produced for observational data. -/
def eventNoSimulation : ArrayEventW :=
  ⟨none, none, none, none, none, none, none, none⟩

/-! CLI argument handling of the hillas_reco main (hillas_reco.cpp),
modelled after argument parsing: the input and output path lists, whether
-c was given and whether the named file could be opened, and whether -s was
given together with the std::stoi outcome for each comma-separated token.
Per-file processing is modelled by a predicate telling which files throw;
the run returns the exit code and the list of attempted file indices. -/

structure CliSetup where
  inputs : List String
  outputs : List String
  config_provided : Bool
  config_opens : Bool
  config_parses : Bool
  subarray_provided : Bool
  subarray_tokens : List (Option Int)
deriving DecidableEq

/-- How a run of main ends: a normal exit carrying the exit code and the
list of attempted file indices, or termination by an exception that no
handler catches (std::terminate, no exit code and no file attempted). -/
inductive CliOutcome where
  | exit (code : Nat) (attempted : List Nat)
  | uncaught_parse_error
deriving DecidableEq

/-- Embedding of the checks and the file loop of main (hillas_reco.cpp):
empty-input and count checks, the config-file load (an unopenable file
returns 1; `f >> config` on a file holding invalid JSON throws a
json::parse_error that nothing catches), the -s token parse, then the
per-file loop.  A per-file exception is caught inside the loop and
processing continues, so the attempted list and the exit code do not
depend on processFails. -/
def mainRun (a : CliSetup) (processFails : Nat → Bool) : CliOutcome :=
  if a.inputs.isEmpty then .exit 1 []
  else if a.inputs.length ≠ a.outputs.length then .exit 1 []
  else if a.config_provided && !a.config_opens then .exit 1 []
  else if a.config_provided && !a.config_parses then .uncaught_parse_error
  else if a.subarray_provided && a.subarray_tokens.any (fun t => t.isNone)
    then .exit 1 []
  else .exit 0 (List.range a.inputs.length)

/-- CLI setup with one matched input/output pair, no config file, and a -s
list whose single token is not a number (std::stoi fails). -/
def cliBadSubarray : CliSetup :=
  ⟨["in.simtel"], ["out.root"], false, false, false, true, [none]⟩

/-- CLI setup with one matched input/output pair and no optional flags. -/
def cliOnePair : CliSetup :=
  ⟨["in.simtel"], ["out.root"], false, false, false, false, []⟩

/-- CLI setup with one matched input/output pair and a -c config file that
opens but holds invalid JSON. -/
def cliBadJson : CliSetup :=
  ⟨["in.simtel"], ["out.root"], true, true, false, false, []⟩

/-! RootWriter::open (RootWriter.cpp).  TFile::Open is external ROOT
behavior: mode NEW yields a null file when the target already exists,
mode RECREATE truncates an existing file (or creates a fresh one). -/

inductive TF where
  | created
  | truncated
deriving DecidableEq

inductive TFMode where
  | recreate
  | new_mode
deriving DecidableEq

/-- Environment model of TFile::Open for the two modes RootWriter uses. -/
def tfileOpen : TFMode → Bool → Option TF
  | TFMode.recreate, true => some TF.truncated
  | TFMode.recreate, false => some TF.created
  | TFMode.new_mode, true => none
  | TFMode.new_mode, false => some TF.created

/-- The raised error of RootWriter::open. -/
inductive OpenError where
  | file_already_exists
deriving DecidableEq

/-- Embedding of RootWriter::open(overwrite): the file member after the
call, and the thrown error if any (the member is assigned before the null
check, so a failed NEW open leaves the writer without an open file). -/
def rootWriterOpen (overwrite : Bool) (target_exists : Bool) :
    Option TF × Option OpenError :=
  if overwrite then (tfileOpen TFMode.recreate target_exists, none)
  else
    match tfileOpen TFMode.new_mode target_exists with
    | none => (none, some OpenError.file_already_exists)
    | some f => (some f, none)

/-! Configuration system (ConfigSystem.hh).  nlohmann::json values are
modelled by the mutual inductives J / JFields.  A real nlohmann object is a
std::map, so its keys are strictly sorted and in particular pairwise
distinct; JFields.setKey inserts at the sorted position like std::map does,
and the well-formedness predicate below records the distinctness that the
lemmas need.  Doubles are modelled by rationals. -/

inductive J where
  | null
  | jb (b : Bool)
  | ji (n : Int)
  | jf (q : ℚ)
  | js (s : String)
  | obj (fs : List (String × J))

/-- Lookup of a key in an object (json contains / operator[] read). -/
def jGetKey? : List (String × J) → String → Option J
  | [], _ => none
  | (k, v) :: fs, key => if k = key then some v else jGetKey? fs key

/-- operator[] with the null default a std::map insertion would give. -/
def jGetD (fs : List (String × J)) (key : String) : J :=
  (jGetKey? fs key).getD J.null

/-- Lexicographic comparison of character lists: the std::string operator<
ordering a std::map of string keys uses. -/
def charsLt : List Char → List Char → Bool
  | [], [] => false
  | [], _ :: _ => true
  | _ :: _, [] => false
  | a :: as, b :: bs =>
    if a < b then true else if b < a then false else charsLt as bs

/-- The std::string key order. -/
def strLtB (a b : String) : Bool := charsLt a.data b.data

/-- Assignment through operator[]: replaces the value of an existing key in
place, or inserts a new key at its sorted std::map position. -/
def jSetKey : List (String × J) → String → J → List (String × J)
  | [], key, v => [(key, v)]
  | (k, w) :: fs, key, v =>
    if k = key then (k, v) :: fs
    else if strLtB key k then (key, v) :: (k, w) :: fs
    else (k, w) :: jSetKey fs key v

/-- json erase(key). -/
def jEraseKey : List (String × J) → String → List (String × J)
  | [], _ => []
  | (k, w) :: fs, key => if k = key then fs else (k, w) :: jEraseKey fs key

/-- Every key of the object is strictly greater than the bound. -/
def jAllKeysGt : List (String × J) → String → Bool
  | [], _ => true
  | (k, _) :: fs, b => strLtB b k && jAllKeysGt fs b

/-- Keys strictly increase along the list, as in a std::map. -/
def jSortedKeys : List (String × J) → Bool
  | [] => true
  | (k, _) :: fs => jAllKeysGt fs k && jSortedKeys fs

mutual
/-- Every object of the tree has strictly sorted keys, as in a real
nlohmann::json value, whose objects are std::map instances. -/
def J.wfKeys : J → Bool
  | .obj fs => jSortedKeys fs && jValuesWf fs
  | _ => true
def jValuesWf : List (String × J) → Bool
  | [] => true
  | (_, v) :: fs => v.wfKeys && jValuesWf fs
end

mutual
/-- RFC 7386 merge patch, as implemented by nlohmann json::merge_patch:
an object patch merges key by key (null values erase), anything else
replaces the target wholesale. -/
def mergePatch (base : J) : J → J
  | .obj pfs =>
    .obj (mergeFields (match base with | .obj bfs => bfs | _ => []) pfs)
  | p => p
def mergeFields (b : List (String × J)) : List (String × J) →
    List (String × J)
  | [] => b
  | (k, v) :: rest =>
    match v with
    | .null => mergeFields (jEraseKey b k) rest
    | _ => mergeFields (jSetKey b k (mergePatch (jGetD b k) v)) rest
end

/-- A registered default value; the constructor carries the C++ type of
registerParam (int, double, bool, std::string). -/
inductive PVal where
  | vInt (n : Int)
  | vRat (q : ℚ)
  | vBool (b : Bool)
  | vStr (s : String)
deriving DecidableEq

/-- The std::any produced by Configurable::json_to_any: nullptr for JSON
null, a typed scalar, or the whole json value for objects. -/
inductive AnyVal where
  | aNull
  | aInt (n : Int)
  | aRat (q : ℚ)
  | aBool (b : Bool)
  | aStr (s : String)
  | aJson (j : J)

/-- Embedding of Configurable::json_to_any. -/
def json_to_any : J → AnyVal
  | .null => .aNull
  | .jb b => .aBool b
  | .ji n => .aInt n
  | .jf q => .aRat q
  | .js s => .aStr s
  | .obj fs => .aJson (.obj fs)

/-- The json written by the typed tail of setJsonValue: none for the
nullptr any, which matches no branch and writes nothing. -/
def AnyVal.toJ? : AnyVal → Option J
  | .aNull => none
  | .aInt n => some (.ji n)
  | .aRat q => some (.jf q)
  | .aBool b => some (.jb b)
  | .aStr s => some (.js s)
  | .aJson j => some j

/-- The std::any holding a registered default value. -/
def pValToAny : PVal → AnyVal
  | .vInt n => .aInt n
  | .vRat q => .aRat q
  | .vBool b => .aBool b
  | .vStr s => .aStr s

/-- The json value a registered default is stored as. -/
def pValToJ : PVal → J
  | .vInt n => .ji n
  | .vRat q => .jf q
  | .vBool b => .jb b
  | .vStr s => .js s

/-- static_cast<int> of a double: truncation toward zero (Int.div
truncates toward zero). -/
def ratTruncToInt (q : ℚ) : Int := q.num / (q.den : Int)

/-- One error value for every nlohmann type_error thrown inside the
configuration machinery (wrong json type for operator[] or for get). -/
inductive CfgErr where
  | type_error
deriving DecidableEq

/-- Typed extraction of getJsonValue, environment model of nlohmann
json::get for the registered types: get to int accepts integers, floats
(static_cast truncation) and booleans (generic arithmetic from_json);
get to double accepts integers and floats only (number_float_t overload);
get to bool and to std::string accept exactly their own type; everything
else throws type_error. -/
def convertVal (dflt : PVal) (v : J) : Except CfgErr PVal :=
  match dflt, v with
  | .vInt _, .ji n => Except.ok (.vInt n)
  | .vInt _, .jf q => Except.ok (.vInt (ratTruncToInt q))
  | .vInt _, .jb b => Except.ok (.vInt (if b then 1 else 0))
  | .vRat _, .ji n => Except.ok (.vRat n)
  | .vRat _, .jf q => Except.ok (.vRat q)
  | .vBool _, .jb b => Except.ok (.vBool b)
  | .vStr _, .js s => Except.ok (.vStr s)
  | _, _ => Except.error CfgErr.type_error

/-- Character loop of Configurable::splitPath. -/
def splitPathChars : List Char → String → List String
  | [], cur => if cur = "" then [] else [cur]
  | c :: cs, cur =>
    if c = '.' then
      if cur = "" then splitPathChars cs "" else cur :: splitPathChars cs ""
    else splitPathChars cs (cur.push c)

/-- Embedding of Configurable::splitPath. -/
def splitPath (path : String) : List String :=
  splitPathChars path.toList ""

/-- Embedding of Configurable::setJsonValue: navigate the parts creating
objects (operator[] converts null to an object and throws type_error on any
other non-object), then write the typed value; the nullptr any matches no
type branch and writes nothing.  An empty part list makes the source loop
bound underflow (undefined behavior), modelled as an error; all paths used
by the program split into at least one part. -/
def setPath (j : J) (parts : List String) (v : AnyVal) : Except CfgErr J :=
  match parts with
  | [] => Except.error CfgErr.type_error
  | [last] =>
    match j with
    | .obj fs =>
      match v.toJ? with
      | none => Except.ok (.obj fs)
      | some w => Except.ok (.obj (jSetKey fs last w))
    | .null =>
      match v.toJ? with
      | none => Except.ok .null
      | some w => Except.ok (.obj [(last, w)])
    | other =>
      match v.toJ? with
      | none => Except.ok other
      | some _ => Except.error CfgErr.type_error
  | part :: rest =>
    match j with
    | .obj fs =>
      match jGetKey? fs part with
      | some child => do
        let c ← setPath child rest v
        Except.ok (.obj (jSetKey fs part c))
      | none => do
        let c ← setPath (.obj []) rest v
        Except.ok (.obj (jSetKey fs part c))
    | .null => do
      let c ← setPath (.obj []) rest v
      Except.ok (.obj [(part, c)])
    | _ => Except.error CfgErr.type_error

/-- Embedding of Configurable::getJsonValue: navigate the parts (contains
returns false on non-objects, giving the default and found = false), then
extract with the type of the default.  The empty part list is undefined
behavior in the source, modelled as an error. -/
def getTyped (j : J) (parts : List String) (dflt : PVal) :
    Except CfgErr (Bool × PVal) :=
  match parts with
  | [] => Except.error CfgErr.type_error
  | [last] =>
    match j with
    | .obj fs =>
      match jGetKey? fs last with
      | none => Except.ok (false, dflt)
      | some v => do
        let w ← convertVal dflt v
        Except.ok (true, w)
    | _ => Except.ok (false, dflt)
  | part :: rest =>
    match j with
    | .obj fs =>
      match jGetKey? fs part with
      | none => Except.ok (false, dflt)
      | some v => getTyped v rest dflt
    | _ => Except.ok (false, dflt)

/-- Pure path lookup in a json tree (used to state what a user config
holds at a dotted path). -/
def lookupPath (j : J) : List String → Option J
  | [] => some j
  | k :: rest =>
    match j with
    | .obj fs =>
      match jGetKey? fs k with
      | some v => lookupPath v rest
      | none => none
    | _ => none

/-- Fold of Configurable::processUserConfig over the top-level items. -/
def processFields (acc : J) : List (String × J) → Except CfgErr J
  | [] => Except.ok acc
  | (k, v) :: fs => do
    let acc2 ← setPath acc (splitPath k) (json_to_any v)
    processFields acc2 fs

/-- Embedding of Configurable::processUserConfig: a null or non-object
user config is left unchanged, otherwise every top-level item is re-set
into a fresh config through setJsonValue, expanding dotted keys. -/
def processUserConfig (userConfig : J) : Except CfgErr J :=
  match userConfig with
  | .obj fs => processFields J.null fs
  | j => Except.ok j

/-- A registered parameter: its dotted path and default value
(registerParam). -/
structure RegParam where
  path : String
  dflt : PVal
deriving DecidableEq

/-- Fold of buildDefaultConfig over the registered parameters. -/
def buildFields (acc : J) : List RegParam → Except CfgErr J
  | [] => Except.ok acc
  | p :: ps => do
    let acc2 ← setPath acc (splitPath p.path) (pValToAny p.dflt)
    buildFields acc2 ps

/-- Embedding of Configurable::buildDefaultConfig. -/
def buildDefaultConfig (params : List RegParam) : Except CfgErr J :=
  buildFields J.null params

/-- The value a parameter setter receives from applyConfig: the typed
extraction when found, the registered default otherwise. -/
def getStep (cfg : J) (parts : List String) (dflt : PVal) :
    Except CfgErr PVal := do
  let r ← getTyped cfg parts dflt
  pure (if r.1 then r.2 else dflt)

/-- Embedding of Configurable::applyConfig: the list of values assigned to
the bound variables, in registration order. -/
def applyConfig (cfg : J) (params : List RegParam) :
    Except CfgErr (List PVal) :=
  params.mapM (fun p => getStep cfg (splitPath p.path) p.dflt)

/-- The current config after mergeConfig: the defaults patched with the
processed user config when the latter is non-null (the `if
(!userConfig.is_null())` guard of initialize). -/
def cfgFinal (dflt u : J) : J :=
  match u with
  | .null => dflt
  | _ => mergePatch dflt u

/-- Embedding of Configurable::initialize: process the user config, build
the defaults, merge when the (processed) user config is not null, then
apply; returns the assigned parameter values and the final current
config. -/
def initializeConfig (params : List RegParam) (userConfig : J) :
    Except CfgErr (List PVal × J) := do
  let u ← processUserConfig userConfig
  let dflt ← buildDefaultConfig params
  let vals ← applyConfig (cfgFinal dflt u) params
  Except.ok (vals, cfgFinal dflt u)

/-- The value the claim predicts for a parameter: the converted user value
at its dotted path in the processed user config when one is present (null
standing for key removal), the registered default otherwise. -/
def effectiveValue (u : J) (p : RegParam) : PVal :=
  match lookupPath u (splitPath p.path) with
  | some J.null => p.dflt
  | some v => ((convertVal p.dflt v).toOption).getD p.dflt
  | none => p.dflt

/-- The parameter values of a successful initialize. -/
def cfgValues : Except CfgErr (List PVal × J) → Option (List PVal)
  | Except.ok r => some r.1
  | Except.error _ => none

/-- The top-level entry of the final config of a successful initialize. -/
def cfgFinalAt (r : Except CfgErr (List PVal × J)) (key : String) :
    Option J :=
  match r with
  | Except.ok (_, .obj fs) => jGetKey? fs key
  | _ => none

/-- Whether one part list is an initial segment of another. -/
def leadsOf : List String → List String → Bool
  | [], _ => true
  | _ :: _, [] => false
  | a :: as, b :: bs => decide (a = b) && leadsOf as bs

/-- Two paths are independent when neither is an initial segment of the
other (this also rules out equality). -/
def pathsIndependent (p q : List String) : Bool :=
  !leadsOf p q && !leadsOf q p

/-- Registered parameter lists have pairwise independent paths. -/
def paramsIndependent : List RegParam → Bool
  | [] => true
  | p :: ps =>
    ps.all (fun q => pathsIndependent (splitPath p.path) (splitPath q.path))
      && paramsIndependent ps

/-- Valid parameter registration: nonempty split paths, pairwise
independent. -/
def paramsValid (params : List RegParam) : Bool :=
  params.all (fun p => !(splitPath p.path).isEmpty) && paramsIndependent params

/-- A usable top-level key: nonempty, without dots. -/
def dotFreeKey (k : String) : Bool :=
  !decide (k = "") && k.toList.all (fun c => !decide (c = '.'))

/-- A scalar json value (not null, not an object). -/
def scalarJ : J → Bool
  | .jb _ => true
  | .ji _ => true
  | .jf _ => true
  | .js _ => true
  | _ => false

/-- The parameters registered by TailcutsCleaner::registerParams. -/
def tailcutsParams : List RegParam :=
  [⟨"picture_thresh", PVal.vRat 10⟩, ⟨"boundary_thresh", PVal.vRat 5⟩,
   ⟨"keep_isolated_pixels", PVal.vBool false⟩,
   ⟨"min_number_picture_neighbors", PVal.vInt 2⟩]

/-- The parameters registered by the test_person component of the
configuration tests. -/
def personParams : List RegParam :=
  [⟨"name", PVal.vStr "default"⟩, ⟨"age", PVal.vInt 0⟩]

theorem countP_mono_of_imp {l : List Nat} {p q : Nat → Bool}
    (h : ∀ a, p a = true → q a = true) : l.countP p ≤ l.countP q := by
  induction l with
  | nil => simp
  | cons a l ih =>
    rw [List.countP_cons, List.countP_cons]
    cases hpa : p a with
    | true =>
      rw [h a hpa]
      simpa using ih
    | false =>
      cases hqa : q a <;> simp <;> omega

/-- C1: for every camera geometry, image, and parameters with
picture_thresh ≥ boundary_thresh ≥ 0 and min_number_picture_neighbors ≥ 0,
the mask returned by tailcuts_clean equals, pixel by pixel, the result of
the four-step set algorithm of the spec. -/
theorem tailcuts_clean_eq_spec (g : CameraGeometry) (image : Nat → ℚ)
    (pt bt : ℚ) (keep : Bool) (minN : Int)
    (h1 : bt ≤ pt) (h2 : 0 ≤ bt) (h3 : 0 ≤ minN) (i : Nat) :
    tailcuts_clean g image pt bt keep minN i =
      specTailcuts g image pt bt keep minN i := by
  cases hk : keep with
  | true =>
    simp [tailcuts_clean, specTailcuts, specPprime, specNeighborsOf,
      specInterCount, specAbove, countNeighbors]
  | false =>
    cases hm : decide (minN = 0) with
    | true =>
      simp [tailcuts_clean, specTailcuts, specPprime, specNeighborsOf,
        specInterCount, specAbove, countNeighbors, hm]
    | false =>
      simp [tailcuts_clean, specTailcuts, specPprime, specNeighborsOf,
        specInterCount, specAbove, countNeighbors, hm]

/-- Witness for C1 at a concrete camera, image, and parameter set. -/
theorem tailcuts_clean_eq_spec_witness :
    (1 : ℚ) ≤ 8 ∧ (0 : ℚ) ≤ 1 ∧ (0 : Int) ≤ 2 ∧
      tailcuts_clean camera4 soloFiveImage 8 1 false 2 10 =
        specTailcuts camera4 soloFiveImage 8 1 false 2 10 :=
  ⟨by norm_num, by norm_num, by norm_num,
    tailcuts_clean_eq_spec camera4 soloFiveImage 8 1 false 2
      (by norm_num) (by norm_num) (by norm_num) 10⟩

/-- C2 counterexample: with the image that is all zeros except
image[10] = 10 (as the claim states), picture_thresh 8, boundary_thresh 1,
keep_isolated_pixels false and min_number_picture_neighbors 0, the returned
mask is empty: no pixel at all survives, in particular not the five pixels
6, 9, 10, 11, 14 required by the claim. -/
theorem tailcuts_solo_zero_mask_empty :
    maskList camera4 (tailcuts_clean camera4 soloZeroImage 8 1 false 0) = [] ∧
      maskList camera4 (tailcuts_clean camera4 soloZeroImage 8 1 false 0) ≠
        [6, 9, 10, 11, 14] := by
  constructor
  · decide
  · decide

theorem countNeighbors_mono (g : CameraGeometry) {s t : Nat → Bool}
    (hst : ∀ j, s j = true → t j = true) (i : Nat) :
    countNeighbors g s i ≤ countNeighbors g t i := by
  unfold countNeighbors
  apply countP_mono_of_imp
  intro a ha
  simp only [Bool.and_eq_true] at ha ⊢
  exact ⟨ha.1, hst a ha.2⟩

/-- C3: with boundary_thresh ≤ picture_thresh, every pixel of the mask
returned by tailcuts_clean either is a picture pixel satisfying the
min_number_picture_neighbors constraint, or is above the boundary threshold
and adjacent (per the neighbor matrix) to a picture pixel. -/
theorem tailcuts_clean_sound (g : CameraGeometry) (image : Nat → ℚ)
    (pt bt : ℚ) (keep : Bool) (minN : Int) (i : Nat) (hbp : bt ≤ pt)
    (hm : tailcuts_clean g image pt bt keep minN i = true) :
    (pt ≤ image i ∧ (keep = true ∨ minN = 0 ∨
        minN ≤ (countNeighbors g (fun j => decide (pt ≤ image j)) i : Int))) ∨
      (bt ≤ image i ∧
        0 < countNeighbors g (fun j => decide (pt ≤ image j)) i) := by
  simp only [tailcuts_clean] at hm
  cases keep with
  | true =>
    simp only [Bool.true_or, eq_self_iff_true, if_true, Bool.or_eq_true,
      Bool.and_eq_true, decide_eq_true_eq] at hm
    rcases hm with ⟨hb, hn⟩ | hp
    · exact Or.inr ⟨hb, hn⟩
    · exact Or.inl ⟨hp, Or.inl rfl⟩
  | false =>
    cases hd : decide (minN = 0) with
    | true =>
      have hm0 : minN = 0 := of_decide_eq_true hd
      simp only [hd, Bool.false_or, eq_self_iff_true, if_true,
        Bool.false_eq_true, if_false, Bool.or_eq_true, Bool.and_eq_true,
        decide_eq_true_eq] at hm
      rcases hm with ⟨hb, hn⟩ | ⟨hp, _⟩
      · exact Or.inr ⟨hb, hn⟩
      · exact Or.inl ⟨hp, Or.inr (Or.inl hm0)⟩
    | false =>
      simp only [hd, Bool.false_or, Bool.false_eq_true, if_false,
        eq_self_iff_true, if_true, Bool.or_eq_true, Bool.and_eq_true,
        decide_eq_true_eq] at hm
      rcases hm with ⟨hb, hn⟩ | ⟨⟨hp, hc⟩, _⟩
      · refine Or.inr ⟨hb, lt_of_lt_of_le hn ?_⟩
        apply countNeighbors_mono
        intro j hj
        simp only [Bool.and_eq_true] at hj
        exact hj.1
      · exact Or.inl ⟨hp, Or.inr (Or.inr hc)⟩

/-- Witness for C3: pixel 6 of the SOLO_ABOVE_THRESHOLD mask is in the mask
and indeed is above the boundary threshold with a picture neighbor. -/
theorem tailcuts_clean_sound_witness :
    (1 : ℚ) ≤ 8 ∧
    tailcuts_clean camera4 soloFiveImage 8 1 false 0 6 = true ∧
    ((8 ≤ soloFiveImage 6 ∧ (false = true ∨ (0 : Int) = 0 ∨
        (0 : Int) ≤ (countNeighbors camera4
          (fun j => decide ((8 : ℚ) ≤ soloFiveImage j)) 6 : Int))) ∨
      (1 ≤ soloFiveImage 6 ∧
        0 < countNeighbors camera4
          (fun j => decide ((8 : ℚ) ≤ soloFiveImage j)) 6)) :=
  ⟨by norm_num, by decide,
    tailcuts_clean_sound camera4 soloFiveImage 8 1 false 0 6 (by norm_num)
      (by decide)⟩

/-- C8: dilate equals mask OR neighbors_of(mask), hence is a superset of
the input mask. -/
theorem dilate_eq_union (g : CameraGeometry) (mask : Nat → Bool) (i : Nat) :
    dilate g mask i = (mask i || specNeighborsOf g mask i) ∧
      (mask i = true → dilate g mask i = true) := by
  constructor
  · rfl
  · intro h
    simp [dilate, h]

/-- Witness for C8 at the 4x4 camera with only pixel 0 set. -/
theorem dilate_eq_union_witness :
    (dilate camera4 (fun j => decide (j = 0)) 1 =
      ((fun j => decide (j = 0)) 1 ||
        specNeighborsOf camera4 (fun j => decide (j = 0)) 1)) ∧
      dilate camera4 (fun j => decide (j = 0)) 0 = true :=
  ⟨(dilate_eq_union camera4 (fun j => decide (j = 0)) 1).1,
    (dilate_eq_union camera4 (fun j => decide (j = 0)) 0).2 (by decide)⟩

/-- C10: tailcuts_clean2 equals tailcuts_clean at the automatically chosen
thresholds picture = max(10, max(image)/10) and
boundary = max(5, max(image)/20) (0 standing for the maximum of an empty
image), and the chosen picture threshold is always at least the chosen
boundary threshold. -/
theorem tailcuts_clean2_eq_auto (g : CameraGeometry) (image : Nat → ℚ)
    (keep : Bool) (minN : Int) :
    (∀ i, tailcuts_clean2 g image keep minN i =
        tailcuts_clean g image (max 10 (imageMaxOrZero g image / 10))
          (max 5 (imageMaxOrZero g image / 20)) keep minN i) ∧
      max 5 (imageMaxOrZero g image / 20) ≤
        max 10 (imageMaxOrZero g image / 10) := by
  constructor
  · intro i
    rfl
  · apply max_le
    · exact le_trans (by norm_num) (le_max_left (10 : ℚ) _)
    · rcases le_or_lt 0 (imageMaxOrZero g image) with h | h
      · exact le_trans (by linarith) (le_max_right (10 : ℚ) _)
      · exact le_trans (by linarith) (le_max_left (10 : ℚ) _)

/-- C2 amended: on the 4x4 camera, for the image that is constant 5 except
image[10] = 10 (the image of the SOLO_ABOVE_THRESHOLD test), tailcuts_clean
with picture_thresh 8, boundary_thresh 1, keep_isolated_pixels false and
min_number_picture_neighbors 0 returns exactly the pixels 6, 9, 10, 11, 14,
so the mask has exactly 5 true entries. -/
theorem tailcuts_solo_five_mask :
    maskList camera4 (tailcuts_clean camera4 soloFiveImage 8 1 false 0) =
      [6, 9, 10, 11, 14] ∧
    (maskList camera4
      (tailcuts_clean camera4 soloFiveImage 8 1 false 0)).length = 5 := by
  constructor
  · decide
  · decide

/-- C4 (code bug): with the default writer flags (write_simulated_camera
defaults to true) and an event without a simulation layer, the
simulated-camera branch of DataWriter::operator() dereferences the absent
optional event.simulation, instead of skipping the layer as every other
branch does. -/
theorem dataWriter_derefs_absent_simulation :
    dataWriterProcessEvent defaultDataWriterFlags true eventNoSimulation =
      Except.error DerefError.absent_simulation := rfl

/-- C5 counterexample: one input matched with one output and no config
file, but a -s subarray list whose token is not parseable: the CLI exits
with code 1 (before processing any file) although none of the three setup
conditions of the claim holds, so the claimed exit code 0 is wrong here. -/
theorem cli_subarray_counterexample :
    mainRun cliBadSubarray (fun _ => false) = CliOutcome.exit 1 [] ∧
      cliBadSubarray.inputs ≠ [] ∧
      cliBadSubarray.inputs.length = cliBadSubarray.outputs.length ∧
      cliBadSubarray.config_provided = false := by
  refine ⟨rfl, ?_, rfl, rfl⟩
  decide

/-- C5 amended: before processing any file, the CLI exits with code 1
exactly when the setup is invalid (no inputs, input/output count mismatch,
unopenable -c file, or — when the config loads — an unparseable -s
telescope id), terminates by an uncaught json parse error exactly when the
-c file opens but holds invalid JSON, and otherwise exits 0 and attempts
every input file; neither the outcome nor the set of attempted files
depends on which files fail during processing. -/
theorem cli_exit_code_spec (a : CliSetup) (pf pf2 : Nat → Bool) :
    (mainRun a pf = CliOutcome.exit 1 [] ↔
      (a.inputs = [] ∨ a.inputs.length ≠ a.outputs.length ∨
        (a.config_provided = true ∧ a.config_opens = false) ∨
        ((a.config_provided = true →
            a.config_opens = true ∧ a.config_parses = true) ∧
          a.subarray_provided = true ∧
          (a.subarray_tokens.any fun t => t.isNone) = true))) ∧
    (mainRun a pf = CliOutcome.uncaught_parse_error ↔
      (a.inputs ≠ [] ∧ a.inputs.length = a.outputs.length ∧
        a.config_provided = true ∧ a.config_opens = true ∧
        a.config_parses = false)) ∧
    (mainRun a pf ≠ CliOutcome.exit 1 [] →
      mainRun a pf ≠ CliOutcome.uncaught_parse_error →
      mainRun a pf = CliOutcome.exit 0 (List.range a.inputs.length)) ∧
    mainRun a pf = mainRun a pf2 := by
  unfold mainRun
  split_ifs with h1 h2 h3 h4 h5
  · refine ⟨⟨fun _ => Or.inl (by simpa using h1), fun _ => rfl⟩,
      ⟨fun h => absurd h (by simp), fun hr => absurd (by simpa using h1) hr.1⟩,
      fun h _ => absurd rfl h, rfl⟩
  · refine ⟨⟨fun _ => Or.inr (Or.inl h2), fun _ => rfl⟩,
      ⟨fun h => absurd h (by simp), fun hr => absurd hr.2.1 h2⟩,
      fun h _ => absurd rfl h, rfl⟩
  · simp only [Bool.and_eq_true, Bool.not_eq_true'] at h3
    refine ⟨⟨fun _ => Or.inr (Or.inr (Or.inl h3)), fun _ => rfl⟩,
      ⟨fun h => absurd h (by simp), fun hr => ?_⟩,
      fun h _ => absurd rfl h, rfl⟩
    rw [h3.2] at hr
    exact absurd hr.2.2.2.1 (by simp)
  · simp only [Bool.and_eq_true, Bool.not_eq_true'] at h4
    have hopens : a.config_opens = true := by
      by_contra hodd
      have ho : a.config_opens = false := by
        cases hoc : a.config_opens
        · rfl
        · exact absurd hoc hodd
      exact h3 (by simp [h4.1, ho])
    refine ⟨⟨fun h => absurd h (by simp), fun hr => ?_⟩,
      ⟨fun _ => ⟨by simpa using h1, not_not.mp h2, h4.1, hopens, h4.2⟩,
        fun _ => rfl⟩,
      fun _ h => absurd rfl h, rfl⟩
    exfalso
    rcases hr with h | h | h | h
    · exact h1 (by simp [h])
    · exact h2 h
    · rw [h.2] at hopens
      exact absurd hopens (by simp)
    · rw [h4.2] at h
      exact absurd (h.1 h4.1).2 (by simp)
  · simp only [Bool.and_eq_true] at h5
    have hcfg : a.config_provided = true →
        a.config_opens = true ∧ a.config_parses = true := by
      intro hp
      constructor
      · by_contra hodd
        have ho : a.config_opens = false := by
          cases hoc : a.config_opens
          · rfl
          · exact absurd hoc hodd
        exact h3 (by simp [hp, ho])
      · by_contra hodd
        have ho : a.config_parses = false := by
          cases hoc : a.config_parses
          · rfl
          · exact absurd hoc hodd
        exact h4 (by simp [hp, ho])
    refine ⟨⟨fun _ => Or.inr (Or.inr (Or.inr ⟨hcfg, h5⟩)), fun _ => rfl⟩,
      ⟨fun h => absurd h (by simp), fun hr => ?_⟩,
      fun h _ => absurd rfl h, rfl⟩
    rw [(hcfg hr.2.2.1).2] at hr
    exact absurd hr.2.2.2.2 (by simp)
  · have hcfg : a.config_provided = true →
        a.config_opens = true ∧ a.config_parses = true := by
      intro hp
      constructor
      · by_contra hodd
        have ho : a.config_opens = false := by
          cases hoc : a.config_opens
          · rfl
          · exact absurd hoc hodd
        exact h3 (by simp [hp, ho])
      · by_contra hodd
        have ho : a.config_parses = false := by
          cases hoc : a.config_parses
          · rfl
          · exact absurd hoc hodd
        exact h4 (by simp [hp, ho])
    refine ⟨⟨fun h => absurd h (by simp), fun hr => ?_⟩,
      ⟨fun h => absurd h (by simp), fun hr => ?_⟩,
      fun _ _ => rfl, rfl⟩
    · exfalso
      rcases hr with h | h | h | h
      · exact h1 (by simp [h])
      · exact h2 h
      · rw [(hcfg h.1).1] at h
        exact absurd h.2 (by simp)
      · exact h5 (by simp [h.2.1, h.2.2])
    · rw [(hcfg hr.2.2.1).2] at hr
      exact absurd hr.2.2.2.2 (by simp)

/-- Witness for C5: a valid one-pair setup where the only file fails
during processing exits 0 having attempted file 0 regardless of the
failure, and a setup whose config file opens but holds invalid JSON
terminates by the uncaught parse error. -/
theorem cli_exit_code_spec_witness :
    mainRun cliOnePair (fun _ => true) =
      CliOutcome.exit 0 (List.range cliOnePair.inputs.length) ∧
    mainRun cliBadJson (fun _ => true) = CliOutcome.uncaught_parse_error ∧
    mainRun cliOnePair (fun _ => true) =
      mainRun cliOnePair (fun _ => false) := by
  refine ⟨?_, ?_,
    (cli_exit_code_spec cliOnePair (fun _ => true) (fun _ => false)).2.2.2⟩
  · exact (cli_exit_code_spec cliOnePair (fun _ => true)
      (fun _ => false)).2.2.1 (by decide) (by decide)
  · exact (cli_exit_code_spec cliBadJson (fun _ => true)
      (fun _ => true)).2.1.mpr (by decide)

/-- C6: RootWriter::open with overwrite = false on an existing output
throws and leaves the writer without an open file; with overwrite = true it
truncates (recreates) the existing output without raising; on an existing
output it raises iff overwrite is false (and on a fresh target neither mode
raises). -/
theorem rootWriter_open_overwrite :
    rootWriterOpen false true = (none, some OpenError.file_already_exists) ∧
      rootWriterOpen true true = (some TF.truncated, none) ∧
      rootWriterOpen false false = (some TF.created, none) ∧
      rootWriterOpen true false = (some TF.created, none) := by
  refine ⟨rfl, rfl, rfl, rfl⟩


theorem charsLt_irrefl (l : List Char) : charsLt l l = false := by
  induction l with
  | nil => rfl
  | cons a as ih => simp [charsLt, lt_irrefl, ih]

theorem charsLt_trans (l1 : List Char) : ∀ (l2 l3 : List Char),
    charsLt l1 l2 = true → charsLt l2 l3 = true → charsLt l1 l3 = true := by
  induction l1 with
  | nil =>
    intro l2 l3 h1 h2
    cases l2 with
    | nil => simp [charsLt] at h1
    | cons b bs =>
      cases l3 with
      | nil => simp [charsLt] at h2
      | cons c cs => simp [charsLt]
  | cons a as ih =>
    intro l2 l3 h1 h2
    cases l2 with
    | nil => simp [charsLt] at h1
    | cons b bs =>
      cases l3 with
      | nil => simp [charsLt] at h2
      | cons c cs =>
        rcases lt_trichotomy a b with hab | hab | hab
        · rcases lt_trichotomy b c with hbc | hbc | hbc
          · simp [charsLt, lt_trans hab hbc]
          · subst hbc
            simp [charsLt, hab]
          · exfalso
            simp only [charsLt] at h2
            rw [if_neg (asymm hbc), if_pos hbc] at h2
            exact absurd h2 (by simp)
        · subst hab
          simp only [charsLt, lt_irrefl, if_false] at h1
          rcases lt_trichotomy a c with hac | hac | hac
          · simp [charsLt, hac]
          · subst hac
            simp only [charsLt, lt_irrefl, if_false] at h2 ⊢
            exact ih bs cs h1 h2
          · exfalso
            simp only [charsLt] at h2
            rw [if_neg (asymm hac), if_pos hac] at h2
            exact absurd h2 (by simp)
        · exfalso
          simp only [charsLt] at h1
          rw [if_neg (asymm hab), if_pos hab] at h1
          exact absurd h1 (by simp)

theorem charsLt_total (l1 : List Char) : ∀ (l2 : List Char),
    charsLt l1 l2 = false → l1 ≠ l2 → charsLt l2 l1 = true := by
  induction l1 with
  | nil =>
    intro l2 h hne
    cases l2 with
    | nil => exact absurd rfl hne
    | cons b bs => simp [charsLt] at h
  | cons a as ih =>
    intro l2 h hne
    cases l2 with
    | nil => simp [charsLt]
    | cons b bs =>
      rcases lt_trichotomy a b with hab | hab | hab
      · simp [charsLt, hab] at h
      · subst hab
        simp only [charsLt, lt_irrefl, if_false] at h ⊢
        have hne2 : as ≠ bs := by
          intro he
          exact hne (by rw [he])
        exact ih bs h hne2
      · simp only [charsLt]
        rw [if_pos hab]

theorem strLtB_ne (a b : String) (h : strLtB a b = true) : a ≠ b := by
  intro he
  subst he
  rw [strLtB, charsLt_irrefl] at h
  exact absurd h (by simp)

theorem strLtB_trans (a b c : String) (h1 : strLtB a b = true)
    (h2 : strLtB b c = true) : strLtB a c = true :=
  charsLt_trans a.data b.data c.data h1 h2

theorem strLtB_total (a b : String) (h : strLtB a b = false) (hne : a ≠ b) :
    strLtB b a = true := by
  refine charsLt_total a.data b.data h ?_
  intro he
  exact hne (String.ext_iff.mpr he)

theorem jGetKey?_setKey_self (fs : List (String × J)) (k : String) (v : J) :
    jGetKey? (jSetKey fs k v) k = some v := by
  induction fs with
  | nil => simp [jSetKey, jGetKey?]
  | cons kv fs ih =>
    obtain ⟨k0, w⟩ := kv
    by_cases h : k0 = k
    · subst h
      simp [jSetKey, jGetKey?]
    · by_cases h2 : strLtB k k0 = true
      · simp [jSetKey, jGetKey?, h, h2]
      · simp [jSetKey, jGetKey?, h, h2, ih]

theorem jGetKey?_setKey_ne (fs : List (String × J)) (k : String) (v : J)
    (key : String) (h : key ≠ k) :
    jGetKey? (jSetKey fs k v) key = jGetKey? fs key := by
  induction fs with
  | nil => simp [jSetKey, jGetKey?, Ne.symm h]
  | cons kv fs ih =>
    obtain ⟨k0, w⟩ := kv
    by_cases h0 : k0 = k
    · subst h0
      simp [jSetKey, jGetKey?, Ne.symm h]
    · by_cases h2 : strLtB k k0 = true
      · simp [jSetKey, jGetKey?, h0, h2, Ne.symm h]
      · simp [jSetKey, jGetKey?, h0, h2, ih]

theorem jGetKey?_eraseKey_ne (fs : List (String × J)) (k key : String)
    (h : key ≠ k) : jGetKey? (jEraseKey fs k) key = jGetKey? fs key := by
  induction fs with
  | nil => simp [jEraseKey]
  | cons kv fs ih =>
    obtain ⟨k0, w⟩ := kv
    by_cases h0 : k0 = k
    · subst h0
      simp [jEraseKey, jGetKey?, Ne.symm h]
    · simp [jEraseKey, jGetKey?, h0, ih]

theorem jAllKeysGt_getKey?_none (fs : List (String × J)) (b : String)
    (h : jAllKeysGt fs b = true) : jGetKey? fs b = none := by
  induction fs with
  | nil => simp [jGetKey?]
  | cons kv fs ih =>
    obtain ⟨k, w⟩ := kv
    simp only [jAllKeysGt, Bool.and_eq_true] at h
    have hne : k ≠ b := Ne.symm (strLtB_ne b k h.1)
    simp [jGetKey?, hne, ih h.2]

theorem jAllKeysGt_of_lt (fs : List (String × J)) (b c : String)
    (h : jAllKeysGt fs c = true) (hbc : strLtB b c = true) :
    jAllKeysGt fs b = true := by
  induction fs with
  | nil => simp [jAllKeysGt]
  | cons kv fs ih =>
    obtain ⟨k, w⟩ := kv
    simp only [jAllKeysGt, Bool.and_eq_true] at h ⊢
    exact ⟨strLtB_trans b c k hbc h.1, ih h.2⟩

theorem jAllKeysGt_setKey (fs : List (String × J)) (b k : String) (v : J)
    (h : jAllKeysGt fs b = true) (hk : strLtB b k = true) :
    jAllKeysGt (jSetKey fs k v) b = true := by
  induction fs with
  | nil => simp [jSetKey, jAllKeysGt, hk]
  | cons kv fs ih =>
    obtain ⟨k0, w⟩ := kv
    simp only [jAllKeysGt, Bool.and_eq_true] at h
    by_cases h0 : k0 = k
    · subst h0
      simp [jSetKey, jAllKeysGt, h.1, h.2]
    · by_cases h2 : strLtB k k0 = true
      · simp [jSetKey, jAllKeysGt, h0, h2, hk, h.1, h.2]
      · simp [jSetKey, jAllKeysGt, h0, h2, h.1, ih h.2]

theorem jAllKeysGt_eraseKey (fs : List (String × J)) (b k : String)
    (h : jAllKeysGt fs b = true) :
    jAllKeysGt (jEraseKey fs k) b = true := by
  induction fs with
  | nil => simp [jEraseKey, jAllKeysGt]
  | cons kv fs ih =>
    obtain ⟨k0, w⟩ := kv
    simp only [jAllKeysGt, Bool.and_eq_true] at h
    by_cases h0 : k0 = k
    · subst h0
      simp [jEraseKey, h.2]
    · simp [jEraseKey, jAllKeysGt, h0, h.1, ih h.2]

theorem jSortedKeys_setKey (fs : List (String × J)) (k : String) (v : J)
    (h : jSortedKeys fs = true) : jSortedKeys (jSetKey fs k v) = true := by
  induction fs with
  | nil => simp [jSetKey, jSortedKeys, jAllKeysGt]
  | cons kv fs ih =>
    obtain ⟨k0, w⟩ := kv
    simp only [jSortedKeys, Bool.and_eq_true] at h
    by_cases h0 : k0 = k
    · subst h0
      simp [jSetKey, jSortedKeys, h.1, h.2]
    · by_cases h2 : strLtB k k0 = true
      · simp [jSetKey, jSortedKeys, jAllKeysGt, h0, h2, h.1, h.2,
          jAllKeysGt_of_lt fs k k0 h.1 h2]
      · have hlt : strLtB k0 k = true :=
          strLtB_total k k0 (by simpa using h2) (fun he => h0 he.symm)
        simp [jSetKey, jSortedKeys, h0, h2, ih h.2,
          jAllKeysGt_setKey fs k0 k v h.1 hlt]

theorem jSortedKeys_eraseKey (fs : List (String × J)) (k : String)
    (h : jSortedKeys fs = true) : jSortedKeys (jEraseKey fs k) = true := by
  induction fs with
  | nil => simp [jEraseKey, jSortedKeys]
  | cons kv fs ih =>
    obtain ⟨k0, w⟩ := kv
    simp only [jSortedKeys, Bool.and_eq_true] at h
    by_cases h0 : k0 = k
    · subst h0
      simp [jEraseKey, h.2]
    · simp [jEraseKey, jSortedKeys, h0, ih h.2,
        jAllKeysGt_eraseKey fs k0 k h.1]

theorem jGetKey?_eraseKey_self (fs : List (String × J)) (k : String)
    (h : jSortedKeys fs = true) : jGetKey? (jEraseKey fs k) k = none := by
  induction fs with
  | nil => simp [jEraseKey, jGetKey?]
  | cons kv fs ih =>
    obtain ⟨k0, w⟩ := kv
    simp only [jSortedKeys, Bool.and_eq_true] at h
    by_cases h0 : k0 = k
    · subst h0
      rw [show jEraseKey ((k0, w) :: fs) k0 = fs by simp [jEraseKey]]
      exact jAllKeysGt_getKey?_none fs k0 h.1
    · simp [jEraseKey, jGetKey?, h0, ih h.2]

theorem mergeFields_cons_null (b : List (String × J)) (k : String)
    (rest : List (String × J)) :
    mergeFields b ((k, J.null) :: rest) = mergeFields (jEraseKey b k) rest := by
  simp [mergeFields]

theorem mergeFields_cons_some (b : List (String × J)) (k : String) (v : J)
    (rest : List (String × J)) (hv : v ≠ J.null) :
    mergeFields b ((k, v) :: rest) =
      mergeFields (jSetKey b k (mergePatch (jGetD b k) v)) rest := by
  cases v <;> simp_all [mergeFields]

theorem getKey?_mergeFields_none (pfs : List (String × J)) :
    ∀ (b : List (String × J)) (key : String), jGetKey? pfs key = none →
    jGetKey? (mergeFields b pfs) key = jGetKey? b key := by
  induction pfs with
  | nil =>
    intro b key _
    simp [mergeFields]
  | cons kv rest ih =>
    intro b key h
    obtain ⟨k, v⟩ := kv
    have hk : ¬ k = key := by
      intro he
      simp [jGetKey?, he] at h
    have hr : jGetKey? rest key = none := by
      simpa [jGetKey?, hk] using h
    by_cases hv : v = J.null
    · subst hv
      rw [mergeFields_cons_null, ih _ key hr]
      exact jGetKey?_eraseKey_ne b k key (fun he => hk he.symm)
    · rw [mergeFields_cons_some b k v rest hv, ih _ key hr]
      exact jGetKey?_setKey_ne b k _ key (fun he => hk he.symm)

theorem getKey?_mergeFields_null (pfs : List (String × J)) :
    ∀ (b : List (String × J)) (key : String),
    jGetKey? pfs key = some J.null → jSortedKeys pfs = true →
    jSortedKeys b = true →
    jGetKey? (mergeFields b pfs) key = none := by
  induction pfs with
  | nil =>
    intro b key h _ _
    simp [jGetKey?] at h
  | cons kv rest ih =>
    intro b key h hs hb
    obtain ⟨k, v⟩ := kv
    simp only [jSortedKeys, Bool.and_eq_true] at hs
    by_cases hk : k = key
    · subst hk
      have hv : v = J.null := by simpa [jGetKey?] using h
      subst hv
      rw [mergeFields_cons_null]
      have hr : jGetKey? rest k = none := jAllKeysGt_getKey?_none rest k hs.1
      rw [getKey?_mergeFields_none rest (jEraseKey b k) k hr]
      exact jGetKey?_eraseKey_self b k hb
    · have hr : jGetKey? rest key = some J.null := by
        simpa [jGetKey?, hk] using h
      by_cases hv : v = J.null
      · subst hv
        rw [mergeFields_cons_null]
        exact ih (jEraseKey b k) key hr hs.2 (jSortedKeys_eraseKey b k hb)
      · rw [mergeFields_cons_some b k v rest hv]
        exact ih _ key hr hs.2 (jSortedKeys_setKey b k _ hb)

theorem getKey?_mergeFields_some (pfs : List (String × J)) :
    ∀ (b : List (String × J)) (key : String) (v0 : J),
    jGetKey? pfs key = some v0 → v0 ≠ J.null → jSortedKeys pfs = true →
    jSortedKeys b = true →
    jGetKey? (mergeFields b pfs) key =
      some (mergePatch (jGetD b key) v0) := by
  induction pfs with
  | nil =>
    intro b key v0 h _ _ _
    simp [jGetKey?] at h
  | cons kv rest ih =>
    intro b key v0 h hv0 hs hb
    obtain ⟨k, v⟩ := kv
    simp only [jSortedKeys, Bool.and_eq_true] at hs
    by_cases hk : k = key
    · subst hk
      have hv : v = v0 := by simpa [jGetKey?] using h
      subst hv
      rw [mergeFields_cons_some b k v rest hv0]
      have hr : jGetKey? rest k = none := jAllKeysGt_getKey?_none rest k hs.1
      rw [getKey?_mergeFields_none rest _ k hr]
      exact jGetKey?_setKey_self b k _
    · have hr : jGetKey? rest key = some v0 := by
        simpa [jGetKey?, hk] using h
      by_cases hv : v = J.null
      · subst hv
        rw [mergeFields_cons_null]
        rw [ih (jEraseKey b k) key v0 hr hv0 hs.2 (jSortedKeys_eraseKey b k hb)]
        simp only [jGetD]
        rw [jGetKey?_eraseKey_ne b k key (fun he => hk he.symm)]
      · rw [mergeFields_cons_some b k v rest hv]
        rw [ih _ key v0 hr hv0 hs.2 (jSortedKeys_setKey b k _ hb)]
        simp only [jGetD]
        rw [jGetKey?_setKey_ne b k _ key (fun he => hk he.symm)]

theorem convertVal_roundtrip (d : PVal) :
    convertVal d (pValToJ d) = Except.ok d := by
  cases d <;> rfl

theorem convertVal_obj (d : PVal) (fs : List (String × J)) :
    convertVal d (J.obj fs) = Except.error CfgErr.type_error := by
  cases d <;> rfl

theorem mergePatch_not_obj (b v : J) (h : ∀ fs, v ≠ J.obj fs) :
    mergePatch b v = v := by
  cases v with
  | obj fs => exact absurd rfl (h fs)
  | null => simp [mergePatch]
  | jb x => simp [mergePatch]
  | ji x => simp [mergePatch]
  | jf x => simp [mergePatch]
  | js x => simp [mergePatch]

theorem mergePatch_obj_obj (bfs pfs : List (String × J)) :
    mergePatch (J.obj bfs) (J.obj pfs) = J.obj (mergeFields bfs pfs) := by
  simp [mergePatch]

theorem wfKeys_obj (fs : List (String × J)) :
    J.wfKeys (J.obj fs) = (jSortedKeys fs && jValuesWf fs) := by
  simp [J.wfKeys]

theorem jValuesWf_getKey? (fs : List (String × J)) :
    ∀ (key : String) (v : J), jValuesWf fs = true →
    jGetKey? fs key = some v → v.wfKeys = true := by
  induction fs with
  | nil =>
    intro key v _ h
    simp [jGetKey?] at h
  | cons kv fs ih =>
    intro key v hw h
    obtain ⟨k, w⟩ := kv
    have hw2 : w.wfKeys = true ∧ jValuesWf fs = true := by
      simpa [jValuesWf, Bool.and_eq_true] using hw
    by_cases hk : k = key
    · have : w = v := by simpa [jGetKey?, hk] using h
      exact this ▸ hw2.1
    · exact ih key v hw2.2 (by simpa [jGetKey?, hk] using h)

theorem lookupPath_cons_inv (j : J) (k : String) (rest : List String) (r : J)
    (h : lookupPath j (k :: rest) = some r) :
    ∃ fs sub, j = J.obj fs ∧ jGetKey? fs k = some sub ∧
      lookupPath sub rest = some r := by
  cases j with
  | obj fs =>
    cases hg : jGetKey? fs k with
    | none => simp [lookupPath, hg] at h
    | some sub =>
      refine ⟨fs, sub, rfl, hg, ?_⟩
      simpa [lookupPath, hg] using h
  | null => simp [lookupPath] at h
  | jb x => simp [lookupPath] at h
  | ji x => simp [lookupPath] at h
  | jf x => simp [lookupPath] at h
  | js x => simp [lookupPath] at h

theorem except_bind_ok {ε α β : Type} (a : α) (f : α → Except ε β) :
    (Except.ok (ε := ε) a >>= f) = f a := rfl

theorem except_bind_err {ε α β : Type} (e : ε) (f : α → Except ε β) :
    (Except.error (α := α) e >>= f) = Except.error e := rfl

theorem getStep_congr (j j2 : J) (parts parts2 : List String) (d : PVal)
    (h : getTyped j parts d = getTyped j2 parts2 d) :
    getStep j parts d = getStep j2 parts2 d := by
  simp [getStep, h]

theorem getStep_of_lookup (parts : List String) : ∀ (j : J) (d : PVal),
    lookupPath j parts = some (pValToJ d) → parts ≠ [] →
    getStep j parts d = Except.ok d := by
  induction parts with
  | nil =>
    intro j d _ hne
    exact absurd rfl hne
  | cons k rest ih =>
    intro j d h _
    obtain ⟨fs, sub, rfl, hk, hsub⟩ := lookupPath_cons_inv j k rest _ h
    cases rest with
    | nil =>
      have hv : sub = pValToJ d := by simpa [lookupPath] using hsub
      subst hv
      simp [getStep, getTyped, hk, convertVal_roundtrip, except_bind_ok]
    | cons p2 rest2 =>
      have hgs : getStep (J.obj fs) (k :: p2 :: rest2) d =
          getStep sub (p2 :: rest2) d := by
        apply getStep_congr
        simp [getTyped, hk]
      rw [hgs]
      exact ih sub d hsub (by simp)

theorem getStep_merge_of_lookup_none (parts : List String) :
    ∀ (base patch : J) (d : PVal),
    lookupPath patch parts = none →
    lookupPath base parts = some (pValToJ d) →
    base.wfKeys = true → patch.wfKeys = true → parts ≠ [] →
    getStep (mergePatch base patch) parts d = Except.ok d := by
  induction parts with
  | nil =>
    intro base patch d _ _ _ _ hne
    exact absurd rfl hne
  | cons k rest ih =>
    intro base patch d hp hb hbw hpw _
    obtain ⟨bfs, bsub, rfl, hbk, hbsub⟩ := lookupPath_cons_inv base k rest _ hb
    have hbs : jSortedKeys bfs = true ∧ jValuesWf bfs = true := by
      simpa [wfKeys_obj, Bool.and_eq_true] using hbw
    cases patch with
    | obj pfs =>
      have hps : jSortedKeys pfs = true ∧ jValuesWf pfs = true := by
        simpa [wfKeys_obj, Bool.and_eq_true] using hpw
      rw [mergePatch_obj_obj]
      cases hpk : jGetKey? pfs k with
      | none =>
        have hm : jGetKey? (mergeFields bfs pfs) k = some bsub := by
          rw [getKey?_mergeFields_none pfs bfs k hpk]
          exact hbk
        cases rest with
        | nil =>
          have hv : bsub = pValToJ d := by simpa [lookupPath] using hbsub
          subst hv
          simp [getStep, getTyped, hm, convertVal_roundtrip, except_bind_ok]
        | cons p2 rest2 =>
          have hgs : getStep (J.obj (mergeFields bfs pfs)) (k :: p2 :: rest2) d =
              getStep bsub (p2 :: rest2) d := by
            apply getStep_congr
            simp [getTyped, hm]
          rw [hgs]
          exact getStep_of_lookup (p2 :: rest2) bsub d hbsub (by simp)
      | some pv =>
        have hpv_rest : lookupPath pv rest = none := by
          simpa [lookupPath, hpk] using hp
        by_cases hnull : pv = J.null
        · subst hnull
          have hm : jGetKey? (mergeFields bfs pfs) k = none :=
            getKey?_mergeFields_null pfs bfs k hpk hps.1 hbs.1
          cases rest with
          | nil => simp [getStep, getTyped, hm]
          | cons p2 rest2 => simp [getStep, getTyped, hm]
        · have hm : jGetKey? (mergeFields bfs pfs) k =
              some (mergePatch (jGetD bfs k) pv) :=
            getKey?_mergeFields_some pfs bfs k pv hpk hnull hps.1 hbs.1
          have hgd : jGetD bfs k = bsub := by simp [jGetD, hbk]
          cases rest with
          | nil =>
            exfalso
            simp [lookupPath] at hpv_rest
          | cons p2 rest2 =>
            have hgs : getStep (J.obj (mergeFields bfs pfs))
                (k :: p2 :: rest2) d =
                getStep (mergePatch bsub pv) (p2 :: rest2) d := by
              apply getStep_congr
              simp [getTyped, hm, hgd]
            rw [hgs]
            exact ih bsub pv d hpv_rest hbsub
              (jValuesWf_getKey? bfs k bsub hbs.2 hbk)
              (jValuesWf_getKey? pfs k pv hps.2 hpk) (by simp)
    | null =>
      rw [mergePatch_not_obj _ _ (fun fs h => J.noConfusion h)]
      cases rest <;> simp [getStep, getTyped]
    | jb x =>
      rw [mergePatch_not_obj _ _ (fun fs h => J.noConfusion h)]
      cases rest <;> simp [getStep, getTyped]
    | ji x =>
      rw [mergePatch_not_obj _ _ (fun fs h => J.noConfusion h)]
      cases rest <;> simp [getStep, getTyped]
    | jf x =>
      rw [mergePatch_not_obj _ _ (fun fs h => J.noConfusion h)]
      cases rest <;> simp [getStep, getTyped]
    | js x =>
      rw [mergePatch_not_obj _ _ (fun fs h => J.noConfusion h)]
      cases rest <;> simp [getStep, getTyped]

theorem getStep_merge_of_lookup_null (parts : List String) :
    ∀ (base patch : J) (d : PVal),
    lookupPath patch parts = some J.null →
    lookupPath base parts = some (pValToJ d) →
    base.wfKeys = true → patch.wfKeys = true → parts ≠ [] →
    getStep (mergePatch base patch) parts d = Except.ok d := by
  induction parts with
  | nil =>
    intro base patch d _ _ _ _ hne
    exact absurd rfl hne
  | cons k rest ih =>
    intro base patch d hp hb hbw hpw _
    obtain ⟨bfs, bsub, rfl, hbk, hbsub⟩ := lookupPath_cons_inv base k rest _ hb
    obtain ⟨pfs, pv, rfl, hpk, hpv_rest⟩ := lookupPath_cons_inv patch k rest _ hp
    have hbs : jSortedKeys bfs = true ∧ jValuesWf bfs = true := by
      simpa [wfKeys_obj, Bool.and_eq_true] using hbw
    have hps : jSortedKeys pfs = true ∧ jValuesWf pfs = true := by
      simpa [wfKeys_obj, Bool.and_eq_true] using hpw
    rw [mergePatch_obj_obj]
    cases rest with
    | nil =>
      have hv : pv = J.null := by simpa [lookupPath] using hpv_rest
      subst hv
      have hm : jGetKey? (mergeFields bfs pfs) k = none :=
        getKey?_mergeFields_null pfs bfs k hpk hps.1 hbs.1
      simp [getStep, getTyped, hm]
    | cons p2 rest2 =>
      by_cases hnull : pv = J.null
      · subst hnull
        exfalso
        simp [lookupPath] at hpv_rest
      · have hm : jGetKey? (mergeFields bfs pfs) k =
            some (mergePatch (jGetD bfs k) pv) :=
          getKey?_mergeFields_some pfs bfs k pv hpk hnull hps.1 hbs.1
        have hgd : jGetD bfs k = bsub := by simp [jGetD, hbk]
        have hgs : getStep (J.obj (mergeFields bfs pfs)) (k :: p2 :: rest2) d =
            getStep (mergePatch bsub pv) (p2 :: rest2) d := by
          apply getStep_congr
          simp [getTyped, hm, hgd]
        rw [hgs]
        exact ih bsub pv d hpv_rest hbsub
          (jValuesWf_getKey? bfs k bsub hbs.2 hbk)
          (jValuesWf_getKey? pfs k pv hps.2 hpk) (by simp)

theorem getStep_merge_of_lookup_some (parts : List String) :
    ∀ (base patch : J) (d : PVal) (v0 : J),
    lookupPath patch parts = some v0 → v0 ≠ J.null →
    lookupPath base parts = some (pValToJ d) →
    base.wfKeys = true → patch.wfKeys = true → parts ≠ [] →
    getStep (mergePatch base patch) parts d = convertVal d v0 := by
  induction parts with
  | nil =>
    intro base patch d v0 _ _ _ _ _ hne
    exact absurd rfl hne
  | cons k rest ih =>
    intro base patch d v0 hp hnull hb hbw hpw _
    obtain ⟨bfs, bsub, rfl, hbk, hbsub⟩ := lookupPath_cons_inv base k rest _ hb
    obtain ⟨pfs, pv, rfl, hpk, hpv_rest⟩ := lookupPath_cons_inv patch k rest _ hp
    have hbs : jSortedKeys bfs = true ∧ jValuesWf bfs = true := by
      simpa [wfKeys_obj, Bool.and_eq_true] using hbw
    have hps : jSortedKeys pfs = true ∧ jValuesWf pfs = true := by
      simpa [wfKeys_obj, Bool.and_eq_true] using hpw
    rw [mergePatch_obj_obj]
    cases rest with
    | nil =>
      have hv : pv = v0 := by simpa [lookupPath] using hpv_rest
      subst hv
      have hm : jGetKey? (mergeFields bfs pfs) k =
          some (mergePatch (jGetD bfs k) pv) :=
        getKey?_mergeFields_some pfs bfs k pv hpk hnull hps.1 hbs.1
      have hgd : jGetD bfs k = bsub := by simp [jGetD, hbk]
      cases pv with
      | obj vfs =>
        have hmp : ∃ mfs, mergePatch bsub (J.obj vfs) = J.obj mfs := by
          cases bsub with
          | obj bfs2 => exact ⟨mergeFields bfs2 vfs, mergePatch_obj_obj bfs2 vfs⟩
          | null => exact ⟨mergeFields [] vfs, by simp [mergePatch]⟩
          | jb x => exact ⟨mergeFields [] vfs, by simp [mergePatch]⟩
          | ji x => exact ⟨mergeFields [] vfs, by simp [mergePatch]⟩
          | jf x => exact ⟨mergeFields [] vfs, by simp [mergePatch]⟩
          | js x => exact ⟨mergeFields [] vfs, by simp [mergePatch]⟩
        obtain ⟨mfs, hmp⟩ := hmp
        have hcv : convertVal d (mergePatch (jGetD bfs k) (J.obj vfs)) =
            Except.error CfgErr.type_error := by
          rw [hgd, hmp]
          exact convertVal_obj d mfs
        have ht : getTyped (J.obj (mergeFields bfs pfs)) [k] d =
            Except.error CfgErr.type_error := by
          simp only [getTyped, hm, hcv, except_bind_err]
        rw [convertVal_obj]
        simp only [getStep, ht, except_bind_err]
      | null => exact absurd rfl hnull
      | jb x =>
        have hmp : mergePatch bsub (J.jb x) = J.jb x :=
          mergePatch_not_obj _ _ (fun fs h => J.noConfusion h)
        cases hc : convertVal d (J.jb x) <;>
          simp [getStep, getTyped, hm, hgd, hmp, hc, except_bind_ok,
            except_bind_err]
      | ji x =>
        have hmp : mergePatch bsub (J.ji x) = J.ji x :=
          mergePatch_not_obj _ _ (fun fs h => J.noConfusion h)
        cases hc : convertVal d (J.ji x) <;>
          simp [getStep, getTyped, hm, hgd, hmp, hc, except_bind_ok,
            except_bind_err]
      | jf x =>
        have hmp : mergePatch bsub (J.jf x) = J.jf x :=
          mergePatch_not_obj _ _ (fun fs h => J.noConfusion h)
        cases hc : convertVal d (J.jf x) <;>
          simp [getStep, getTyped, hm, hgd, hmp, hc, except_bind_ok,
            except_bind_err]
      | js x =>
        have hmp : mergePatch bsub (J.js x) = J.js x :=
          mergePatch_not_obj _ _ (fun fs h => J.noConfusion h)
        cases hc : convertVal d (J.js x) <;>
          simp [getStep, getTyped, hm, hgd, hmp, hc, except_bind_ok,
            except_bind_err]
    | cons p2 rest2 =>
      by_cases hvnull : pv = J.null
      · subst hvnull
        exfalso
        simp [lookupPath] at hpv_rest
      · have hm : jGetKey? (mergeFields bfs pfs) k =
            some (mergePatch (jGetD bfs k) pv) :=
          getKey?_mergeFields_some pfs bfs k pv hpk hvnull hps.1 hbs.1
        have hgd : jGetD bfs k = bsub := by simp [jGetD, hbk]
        have hgs : getStep (J.obj (mergeFields bfs pfs)) (k :: p2 :: rest2) d =
            getStep (mergePatch bsub pv) (p2 :: rest2) d := by
          apply getStep_congr
          simp [getTyped, hm, hgd]
        rw [hgs]
        exact ih bsub pv d v0 hpv_rest hnull hbsub
          (jValuesWf_getKey? bfs k bsub hbs.2 hbk)
          (jValuesWf_getKey? pfs k pv hps.2 hpk) (by simp)

theorem lookupPath_empty_obj (parts : List String) (h : parts ≠ []) :
    lookupPath (J.obj []) parts = none := by
  cases parts with
  | nil => exact absurd rfl h
  | cons k rest => simp [lookupPath, jGetKey?]

theorem setPath_lookup (parts : List String) : ∀ (j j2 : J) (av : AnyVal)
    (w : J), av.toJ? = some w → setPath j parts av = Except.ok j2 →
    lookupPath j2 parts = some w := by
  induction parts with
  | nil =>
    intro j j2 av w _ h
    simp [setPath] at h
  | cons k rest ih =>
    intro j j2 av w hw h
    cases rest with
    | nil =>
      cases j with
      | obj fs =>
        simp only [setPath, hw, Except.ok.injEq] at h
        rw [← h]
        simp [lookupPath, jGetKey?_setKey_self]
      | null =>
        simp only [setPath, hw, Except.ok.injEq] at h
        rw [← h]
        simp [lookupPath, jGetKey?]
      | jb x => simp [setPath, hw] at h
      | ji x => simp [setPath, hw] at h
      | jf x => simp [setPath, hw] at h
      | js x => simp [setPath, hw] at h
    | cons p2 rest2 =>
      cases j with
      | obj fs =>
        cases hgk : jGetKey? fs k with
        | some child =>
          cases hsp : setPath child (p2 :: rest2) av with
          | error e => simp [setPath, hgk, hsp, except_bind_err] at h
          | ok c =>
            simp only [setPath, hgk, hsp, except_bind_ok,
              Except.ok.injEq] at h
            rw [← h]
            have hstep : lookupPath (J.obj (jSetKey fs k c))
                (k :: p2 :: rest2) = lookupPath c (p2 :: rest2) := by
              simp only [lookupPath, jGetKey?_setKey_self]
            rw [hstep]
            exact ih child c av w hw hsp
        | none =>
          cases hsp : setPath (J.obj []) (p2 :: rest2) av with
          | error e => simp [setPath, hgk, hsp, except_bind_err] at h
          | ok c =>
            simp only [setPath, hgk, hsp, except_bind_ok,
              Except.ok.injEq] at h
            rw [← h]
            have hstep : lookupPath (J.obj (jSetKey fs k c))
                (k :: p2 :: rest2) = lookupPath c (p2 :: rest2) := by
              simp only [lookupPath, jGetKey?_setKey_self]
            rw [hstep]
            exact ih _ c av w hw hsp
      | null =>
        cases hsp : setPath (J.obj []) (p2 :: rest2) av with
        | error e => simp [setPath, hsp, except_bind_err] at h
        | ok c =>
          simp only [setPath, hsp, except_bind_ok, Except.ok.injEq] at h
          rw [← h]
          have hstep : lookupPath (J.obj [(k, c)]) (k :: p2 :: rest2) =
              lookupPath c (p2 :: rest2) := by
            simp only [lookupPath, jGetKey?, eq_self_iff_true, if_true]
          rw [hstep]
          exact ih _ c av w hw hsp
      | jb x => simp [setPath] at h
      | ji x => simp [setPath] at h
      | jf x => simp [setPath] at h
      | js x => simp [setPath] at h

theorem setPath_lookup_other (parts : List String) : ∀ (parts2 : List String)
    (j j2 : J) (av : AnyVal),
    setPath j parts av = Except.ok j2 →
    pathsIndependent parts parts2 = true →
    lookupPath j2 parts2 = lookupPath j parts2 := by
  induction parts with
  | nil =>
    intro parts2 j j2 av h _
    simp [setPath] at h
  | cons k rest ih =>
    intro parts2 j j2 av h hind
    cases parts2 with
    | nil =>
      exfalso
      simp [pathsIndependent, leadsOf] at hind
    | cons k2 rest2 =>
      by_cases hk : k2 = k
      · subst hk
        have hind2 : pathsIndependent rest rest2 = true := by
          simpa [pathsIndependent, leadsOf] using hind
        cases rest with
        | nil =>
          exfalso
          simp [pathsIndependent, leadsOf] at hind2
        | cons p2 rest3 =>
          have hr2 : rest2 ≠ [] := by
            rintro rfl
            simp [pathsIndependent, leadsOf] at hind2
          cases j with
          | obj fs =>
            cases hgk : jGetKey? fs k2 with
            | some child =>
              cases hsp : setPath child (p2 :: rest3) av with
              | error e => simp [setPath, hgk, hsp, except_bind_err] at h
              | ok c =>
                simp only [setPath, hgk, hsp, except_bind_ok,
                  Except.ok.injEq] at h
                rw [← h]
                have h1 : lookupPath (J.obj (jSetKey fs k2 c))
                    (k2 :: rest2) = lookupPath c rest2 := by
                  simp only [lookupPath, jGetKey?_setKey_self]
                have h2 : lookupPath (J.obj fs) (k2 :: rest2) =
                    lookupPath child rest2 := by
                  simp only [lookupPath, hgk]
                rw [h1, h2]
                exact ih rest2 child c av hsp hind2
            | none =>
              cases hsp : setPath (J.obj []) (p2 :: rest3) av with
              | error e => simp [setPath, hgk, hsp, except_bind_err] at h
              | ok c =>
                simp only [setPath, hgk, hsp, except_bind_ok,
                  Except.ok.injEq] at h
                rw [← h]
                have h1 : lookupPath (J.obj (jSetKey fs k2 c))
                    (k2 :: rest2) = lookupPath c rest2 := by
                  simp only [lookupPath, jGetKey?_setKey_self]
                have h2 : lookupPath (J.obj fs) (k2 :: rest2) = none := by
                  simp only [lookupPath, hgk]
                rw [h1, h2, ih rest2 (J.obj []) c av hsp hind2]
                exact lookupPath_empty_obj rest2 hr2
          | null =>
            cases hsp : setPath (J.obj []) (p2 :: rest3) av with
            | error e => simp [setPath, hsp, except_bind_err] at h
            | ok c =>
              simp only [setPath, hsp, except_bind_ok, Except.ok.injEq] at h
              rw [← h]
              have h1 : lookupPath (J.obj [(k2, c)]) (k2 :: rest2) =
                  lookupPath c rest2 := by
                simp only [lookupPath, jGetKey?, eq_self_iff_true, if_true]
              rw [h1, ih rest2 (J.obj []) c av hsp hind2]
              rw [lookupPath_empty_obj rest2 hr2]
              simp [lookupPath]
          | jb x => simp [setPath] at h
          | ji x => simp [setPath] at h
          | jf x => simp [setPath] at h
          | js x => simp [setPath] at h
      · -- the queried head key differs from the set head key
        have hk2 : k ≠ k2 := fun he => hk he.symm
        cases rest with
        | nil =>
          cases j with
          | obj fs =>
            cases hw : av.toJ? with
            | none =>
              simp only [setPath, hw, Except.ok.injEq] at h
              rw [← h]
            | some w =>
              simp only [setPath, hw, Except.ok.injEq] at h
              rw [← h]
              simp only [lookupPath, jGetKey?_setKey_ne fs k w k2 hk]
          | null =>
            cases hw : av.toJ? with
            | none =>
              simp only [setPath, hw, Except.ok.injEq] at h
              rw [← h]
            | some w =>
              simp only [setPath, hw, Except.ok.injEq] at h
              rw [← h]
              simp [lookupPath, jGetKey?, hk2]
          | jb x =>
            cases hw : av.toJ? with
            | none =>
              simp only [setPath, hw, Except.ok.injEq] at h
              rw [← h]
            | some w => simp [setPath, hw] at h
          | ji x =>
            cases hw : av.toJ? with
            | none =>
              simp only [setPath, hw, Except.ok.injEq] at h
              rw [← h]
            | some w => simp [setPath, hw] at h
          | jf x =>
            cases hw : av.toJ? with
            | none =>
              simp only [setPath, hw, Except.ok.injEq] at h
              rw [← h]
            | some w => simp [setPath, hw] at h
          | js x =>
            cases hw : av.toJ? with
            | none =>
              simp only [setPath, hw, Except.ok.injEq] at h
              rw [← h]
            | some w => simp [setPath, hw] at h
        | cons p2 rest3 =>
          cases j with
          | obj fs =>
            cases hgk : jGetKey? fs k with
            | some child =>
              cases hsp : setPath child (p2 :: rest3) av with
              | error e => simp [setPath, hgk, hsp, except_bind_err] at h
              | ok c =>
                simp only [setPath, hgk, hsp, except_bind_ok,
                  Except.ok.injEq] at h
                rw [← h]
                simp only [lookupPath, jGetKey?_setKey_ne fs k c k2 hk]
            | none =>
              cases hsp : setPath (J.obj []) (p2 :: rest3) av with
              | error e => simp [setPath, hgk, hsp, except_bind_err] at h
              | ok c =>
                simp only [setPath, hgk, hsp, except_bind_ok,
                  Except.ok.injEq] at h
                rw [← h]
                simp only [lookupPath, jGetKey?_setKey_ne fs k c k2 hk]
          | null =>
            cases hsp : setPath (J.obj []) (p2 :: rest3) av with
            | error e => simp [setPath, hsp, except_bind_err] at h
            | ok c =>
              simp only [setPath, hsp, except_bind_ok, Except.ok.injEq] at h
              rw [← h]
              simp [lookupPath, jGetKey?, hk2]
          | jb x => simp [setPath] at h
          | ji x => simp [setPath] at h
          | jf x => simp [setPath] at h
          | js x => simp [setPath] at h

theorem wfKeys_scalar_true (v : J) (h : ∀ fs, v ≠ J.obj fs) :
    v.wfKeys = true := by
  cases v with
  | obj fs => exact absurd rfl (h fs)
  | null => simp [J.wfKeys]
  | jb x => simp [J.wfKeys]
  | ji x => simp [J.wfKeys]
  | jf x => simp [J.wfKeys]
  | js x => simp [J.wfKeys]

theorem wfKeys_empty_obj : (J.obj []).wfKeys = true := by
  simp [J.wfKeys, jSortedKeys, jValuesWf]

theorem jValuesWf_setKey (fs : List (String × J)) (k : String) (w : J)
    (hf : jValuesWf fs = true) (hw : w.wfKeys = true) :
    jValuesWf (jSetKey fs k w) = true := by
  induction fs with
  | nil => simp [jSetKey, jValuesWf, hw]
  | cons kv fs ih =>
    obtain ⟨k0, v0⟩ := kv
    have hf2 : v0.wfKeys = true ∧ jValuesWf fs = true := by
      simpa [jValuesWf, Bool.and_eq_true] using hf
    by_cases h0 : k0 = k
    · subst h0
      simp [jSetKey, jValuesWf, hw, hf2.2]
    · by_cases h2 : strLtB k k0 = true
      · simp [jSetKey, jValuesWf, h0, h2, hw, hf2.1, hf2.2]
      · simp [jSetKey, jValuesWf, h0, h2, hf2.1, ih hf2.2]

theorem wfKeys_setKey_obj (fs : List (String × J)) (k : String) (w : J)
    (hf : (J.obj fs).wfKeys = true) (hw : w.wfKeys = true) :
    (J.obj (jSetKey fs k w)).wfKeys = true := by
  have h2 : jSortedKeys fs = true ∧ jValuesWf fs = true := by
    simpa [wfKeys_obj, Bool.and_eq_true] using hf
  rw [wfKeys_obj]
  simp [jSortedKeys_setKey fs k w h2.1, jValuesWf_setKey fs k w h2.2 hw]

theorem setPath_wf (parts : List String) : ∀ (j j2 : J) (av : AnyVal),
    setPath j parts av = Except.ok j2 → j.wfKeys = true →
    (∀ w, av.toJ? = some w → w.wfKeys = true) → j2.wfKeys = true := by
  induction parts with
  | nil =>
    intro j j2 av h _ _
    simp [setPath] at h
  | cons k rest ih =>
    intro j j2 av h hj hav
    cases rest with
    | nil =>
      cases j with
      | obj fs =>
        cases hw : av.toJ? with
        | none =>
          simp only [setPath, hw, Except.ok.injEq] at h
          rw [← h]
          exact hj
        | some w =>
          simp only [setPath, hw, Except.ok.injEq] at h
          rw [← h]
          exact wfKeys_setKey_obj fs k w hj (hav w hw)
      | null =>
        cases hw : av.toJ? with
        | none =>
          simp only [setPath, hw, Except.ok.injEq] at h
          rw [← h]
          exact hj
        | some w =>
          simp only [setPath, hw, Except.ok.injEq] at h
          rw [← h]
          rw [wfKeys_obj]
          simp [jSortedKeys, jAllKeysGt, jValuesWf, hav w hw]
      | jb x =>
        cases hw : av.toJ? with
        | none =>
          simp only [setPath, hw, Except.ok.injEq] at h
          rw [← h]
          exact hj
        | some w => simp [setPath, hw] at h
      | ji x =>
        cases hw : av.toJ? with
        | none =>
          simp only [setPath, hw, Except.ok.injEq] at h
          rw [← h]
          exact hj
        | some w => simp [setPath, hw] at h
      | jf x =>
        cases hw : av.toJ? with
        | none =>
          simp only [setPath, hw, Except.ok.injEq] at h
          rw [← h]
          exact hj
        | some w => simp [setPath, hw] at h
      | js x =>
        cases hw : av.toJ? with
        | none =>
          simp only [setPath, hw, Except.ok.injEq] at h
          rw [← h]
          exact hj
        | some w => simp [setPath, hw] at h
    | cons p2 rest2 =>
      cases j with
      | obj fs =>
        cases hgk : jGetKey? fs k with
        | some child =>
          cases hsp : setPath child (p2 :: rest2) av with
          | error e => simp [setPath, hgk, hsp, except_bind_err] at h
          | ok c =>
            simp only [setPath, hgk, hsp, except_bind_ok,
              Except.ok.injEq] at h
            rw [← h]
            have hcw : child.wfKeys = true := by
              have h2 : jSortedKeys fs = true ∧ jValuesWf fs = true := by
                simpa [wfKeys_obj, Bool.and_eq_true] using hj
              exact jValuesWf_getKey? fs k child h2.2 hgk
            exact wfKeys_setKey_obj fs k c hj (ih child c av hsp hcw hav)
        | none =>
          cases hsp : setPath (J.obj []) (p2 :: rest2) av with
          | error e => simp [setPath, hgk, hsp, except_bind_err] at h
          | ok c =>
            simp only [setPath, hgk, hsp, except_bind_ok,
              Except.ok.injEq] at h
            rw [← h]
            exact wfKeys_setKey_obj fs k c hj
              (ih (J.obj []) c av hsp wfKeys_empty_obj hav)
      | null =>
        cases hsp : setPath (J.obj []) (p2 :: rest2) av with
        | error e => simp [setPath, hsp, except_bind_err] at h
        | ok c =>
          simp only [setPath, hsp, except_bind_ok, Except.ok.injEq] at h
          rw [← h]
          rw [wfKeys_obj]
          simp [jSortedKeys, jAllKeysGt, jValuesWf,
            ih (J.obj []) c av hsp wfKeys_empty_obj hav]
      | jb x => simp [setPath] at h
      | ji x => simp [setPath] at h
      | jf x => simp [setPath] at h
      | js x => simp [setPath] at h

theorem json_to_any_toJ?_wf (v : J) (hv : v.wfKeys = true) :
    ∀ w, (json_to_any v).toJ? = some w → w.wfKeys = true := by
  intro w hw
  cases v with
  | null => simp [json_to_any, AnyVal.toJ?] at hw
  | jb x =>
    simp only [json_to_any, AnyVal.toJ?, Option.some.injEq] at hw
    rw [← hw]
    simp [J.wfKeys]
  | ji x =>
    simp only [json_to_any, AnyVal.toJ?, Option.some.injEq] at hw
    rw [← hw]
    simp [J.wfKeys]
  | jf x =>
    simp only [json_to_any, AnyVal.toJ?, Option.some.injEq] at hw
    rw [← hw]
    simp [J.wfKeys]
  | js x =>
    simp only [json_to_any, AnyVal.toJ?, Option.some.injEq] at hw
    rw [← hw]
    simp [J.wfKeys]
  | obj fs =>
    simp only [json_to_any, AnyVal.toJ?, Option.some.injEq] at hw
    rw [← hw]
    exact hv

theorem processFields_wf (items : List (String × J)) : ∀ (acc u : J),
    processFields acc items = Except.ok u → acc.wfKeys = true →
    jValuesWf items = true → u.wfKeys = true := by
  induction items with
  | nil =>
    intro acc u h ha _
    simp only [processFields, Except.ok.injEq] at h
    rw [← h]
    exact ha
  | cons kv fs ih =>
    intro acc u h ha hvw
    obtain ⟨k, v⟩ := kv
    have hv2 : v.wfKeys = true ∧ jValuesWf fs = true := by
      simpa [jValuesWf, Bool.and_eq_true] using hvw
    cases hsp : setPath acc (splitPath k) (json_to_any v) with
    | error e => simp [processFields, hsp, except_bind_err] at h
    | ok acc2 =>
      simp only [processFields, hsp, except_bind_ok] at h
      exact ih acc2 u h
        (setPath_wf (splitPath k) acc acc2 (json_to_any v) hsp ha
          (json_to_any_toJ?_wf v hv2.1)) hv2.2

theorem processUserConfig_wf (userCfg u : J)
    (h : processUserConfig userCfg = Except.ok u)
    (hw : userCfg.wfKeys = true) : u.wfKeys = true := by
  cases userCfg with
  | obj fs =>
    have h2 : jSortedKeys fs = true ∧ jValuesWf fs = true := by
      simpa [wfKeys_obj, Bool.and_eq_true] using hw
    exact processFields_wf fs J.null u
      (by simpa [processUserConfig] using h) (by simp [J.wfKeys]) h2.2
  | null =>
    simp only [processUserConfig, Except.ok.injEq] at h
    rw [← h]
    exact hw
  | jb x =>
    simp only [processUserConfig, Except.ok.injEq] at h
    rw [← h]
    exact hw
  | ji x =>
    simp only [processUserConfig, Except.ok.injEq] at h
    rw [← h]
    exact hw
  | jf x =>
    simp only [processUserConfig, Except.ok.injEq] at h
    rw [← h]
    exact hw
  | js x =>
    simp only [processUserConfig, Except.ok.injEq] at h
    rw [← h]
    exact hw

theorem pValToAny_toJ? (d : PVal) : (pValToAny d).toJ? = some (pValToJ d) := by
  cases d <;> rfl

theorem pValToJ_wf (d : PVal) : (pValToJ d).wfKeys = true := by
  cases d <;> simp [pValToJ, J.wfKeys]

theorem pathsIndependent_symm (p q : List String) :
    pathsIndependent p q = pathsIndependent q p := by
  simp [pathsIndependent, Bool.and_comm]

theorem buildFields_lookup (params : List RegParam) : ∀ (acc out : J),
    buildFields acc params = Except.ok out →
    paramsIndependent params = true →
    ((∀ p ∈ params,
        lookupPath out (splitPath p.path) = some (pValToJ p.dflt)) ∧
      (∀ parts2,
        (params.all fun q => pathsIndependent (splitPath q.path) parts2) =
          true →
        lookupPath out parts2 = lookupPath acc parts2)) := by
  induction params with
  | nil =>
    intro acc out h _
    simp only [buildFields, Except.ok.injEq] at h
    exact ⟨by simp, fun parts2 _ => by rw [← h]⟩
  | cons p ps ih =>
    intro acc out h hind
    have hind2 : (ps.all fun q =>
        pathsIndependent (splitPath p.path) (splitPath q.path)) = true ∧
        paramsIndependent ps = true := by
      simpa [paramsIndependent, Bool.and_eq_true] using hind
    cases hsp : setPath acc (splitPath p.path) (pValToAny p.dflt) with
    | error e => simp [buildFields, hsp, except_bind_err] at h
    | ok acc2 =>
      simp only [buildFields, hsp, except_bind_ok] at h
      obtain ⟨ihm, ihp⟩ := ih acc2 out h hind2.2
      have hsym : (ps.all fun q =>
          pathsIndependent (splitPath q.path) (splitPath p.path)) = true := by
        rw [List.all_eq_true] at hind2 ⊢
        intro q hq
        rw [pathsIndependent_symm]
        exact hind2.1 q hq
      constructor
      · intro q hq
        rcases List.mem_cons.mp hq with rfl | hq2
        · rw [ihp (splitPath q.path) hsym]
          exact setPath_lookup (splitPath q.path) acc acc2 (pValToAny q.dflt)
            (pValToJ q.dflt) (pValToAny_toJ? q.dflt) hsp
        · exact ihm q hq2
      · intro parts2 hall
        have hall2 : (ps.all fun q =>
            pathsIndependent (splitPath q.path) parts2) = true ∧
            pathsIndependent (splitPath p.path) parts2 = true := by
          rw [List.all_eq_true] at hall
          constructor
          · rw [List.all_eq_true]
            intro q hq
            exact hall q (List.mem_cons_of_mem p hq)
          · exact hall p (List.mem_cons_self p ps)
        rw [ihp parts2 hall2.1]
        exact setPath_lookup_other (splitPath p.path) parts2 acc acc2
          (pValToAny p.dflt) hsp hall2.2

theorem buildFields_wf (params : List RegParam) : ∀ (acc out : J),
    buildFields acc params = Except.ok out → acc.wfKeys = true →
    out.wfKeys = true := by
  induction params with
  | nil =>
    intro acc out h ha
    simp only [buildFields, Except.ok.injEq] at h
    rw [← h]
    exact ha
  | cons p ps ih =>
    intro acc out h ha
    cases hsp : setPath acc (splitPath p.path) (pValToAny p.dflt) with
    | error e => simp [buildFields, hsp, except_bind_err] at h
    | ok acc2 =>
      simp only [buildFields, hsp, except_bind_ok] at h
      refine ih acc2 out h ?_
      refine setPath_wf (splitPath p.path) acc acc2 _ hsp ha ?_
      intro w hw
      rw [pValToAny_toJ? p.dflt, Option.some.injEq] at hw
      rw [← hw]
      exact pValToJ_wf p.dflt

theorem splitPathChars_no_dot (cs : List Char) : ∀ (cur : String),
    (∀ c ∈ cs, ¬ c = '.') →
    splitPathChars cs cur =
      if cur.data ++ cs = [] then [] else [String.mk (cur.data ++ cs)] := by
  induction cs with
  | nil =>
    intro cur _
    by_cases hc : cur = ""
    · subst hc
      simp [splitPathChars]
    · have hd : cur.data ≠ [] := by
        intro he
        exact hc (String.ext_iff.mpr (by simpa using he))
      simp [splitPathChars, hc, hd]
  | cons c cs ih =>
    intro cur h
    have hc : ¬ c = '.' := h c (by simp)
    rw [show splitPathChars (c :: cs) cur = splitPathChars cs (cur.push c) by
      simp [splitPathChars, hc]]
    rw [ih (cur.push c) (fun c2 hc2 => h c2 (by simp [hc2]))]
    have he : (cur.push c).data ++ cs = cur.data ++ (c :: cs) := by
      simp [String.push]
    rw [he]

theorem splitPath_single (k : String) (h : dotFreeKey k = true) :
    splitPath k = [k] := by
  have h2 : ¬ k = "" ∧ (k.toList.all fun c => !decide (c = '.')) = true := by
    simpa [dotFreeKey, Bool.and_eq_true] using h
  have hcs : ∀ c ∈ k.data, ¬ c = '.' := by
    have := h2.2
    rw [List.all_eq_true] at this
    intro c hc
    simpa using this c hc
  have hd : k.data ≠ [] := by
    intro he
    exact h2.1 (String.ext_iff.mpr (by simpa using he))
  rw [splitPath, show k.toList = k.data from rfl,
    splitPathChars_no_dot k.data "" hcs]
  simp [hd]

theorem splitPathChars_dot (cs : List Char) : ∀ (cur : String)
    (ds : List Char), (∀ c ∈ cs, ¬ c = '.') → cur.data ++ cs ≠ [] →
    splitPathChars (cs ++ '.' :: ds) cur =
      String.mk (cur.data ++ cs) :: splitPathChars ds "" := by
  induction cs with
  | nil =>
    intro cur ds _ hne
    have hc : ¬ cur = "" := by
      intro he
      subst he
      simp at hne
    simp [splitPathChars, hc]
  | cons c cs ih =>
    intro cur ds h hne
    have hc : ¬ c = '.' := h c (by simp)
    rw [show splitPathChars ((c :: cs) ++ '.' :: ds) cur =
        splitPathChars (cs ++ '.' :: ds) (cur.push c) by
      simp [splitPathChars, hc]]
    rw [ih (cur.push c) ds (fun c2 hc2 => h c2 (by simp [hc2]))
      (by simp [String.push])]
    have he : (cur.push c).data ++ cs = cur.data ++ (c :: cs) := by
      simp [String.push]
    rw [he]

theorem splitPath_dotted (k1 k2 : String) (h1 : dotFreeKey k1 = true)
    (h2 : dotFreeKey k2 = true) :
    splitPath (k1 ++ "." ++ k2) = [k1, k2] := by
  have h1b : ¬ k1 = "" ∧ (k1.toList.all fun c => !decide (c = '.')) = true := by
    simpa [dotFreeKey, Bool.and_eq_true] using h1
  have hcs1 : ∀ c ∈ k1.data, ¬ c = '.' := by
    have := h1b.2
    rw [List.all_eq_true] at this
    intro c hc
    simpa using this c hc
  have hd1 : ("" : String).data ++ k1.data ≠ [] := by
    intro he
    exact h1b.1 (String.ext_iff.mpr (by simpa using he))
  have hdata : (k1 ++ "." ++ k2).toList = k1.data ++ '.' :: k2.data := by
    show (k1 ++ "." ++ k2).data = k1.data ++ '.' :: k2.data
    have : (k1 ++ "." ++ k2).data = k1.data ++ ("." : String).data ++ k2.data :=
      rfl
    rw [this]
    simp
  rw [splitPath, hdata, splitPathChars_dot k1.data "" k2.data hcs1 hd1]
  have hsp : splitPathChars k2.data "" = [k2] := by
    rw [show splitPathChars k2.data "" = splitPath k2 from rfl]
    exact splitPath_single k2 h2
  rw [hsp, show ("" : String).data ++ k1.data = k1.data by simp]

theorem mapM_ok_each {α β : Type} (f : α → Except CfgErr β) :
    ∀ (l : List α) (out : List β), l.mapM f = Except.ok out →
    ∀ a ∈ l, ∃ b, f a = Except.ok b := by
  intro l
  induction l with
  | nil => simp
  | cons a l ih =>
    intro out h a2 ha2
    rw [List.mapM_cons] at h
    cases hfa : f a with
    | error e =>
      rw [hfa, except_bind_err] at h
      exact absurd h (by simp)
    | ok b =>
      rw [hfa, except_bind_ok] at h
      cases hml : l.mapM f with
      | error e =>
        rw [hml, except_bind_err] at h
        exact absurd h (by simp)
      | ok bs =>
        rcases List.mem_cons.mp ha2 with rfl | ha3
        · exact ⟨b, hfa⟩
        · exact ih bs hml a2 ha3

theorem mapM_ok_map {α β : Type} (f : α → Except CfgErr β) (g : α → β) :
    ∀ (l : List α) (out : List β), l.mapM f = Except.ok out →
    (∀ a ∈ l, ∀ b, f a = Except.ok b → b = g a) →
    out = l.map g := by
  intro l
  induction l with
  | nil =>
    intro out h _
    simp only [List.mapM_nil] at h
    cases h
    rfl
  | cons a l ih =>
    intro out h hg
    rw [List.mapM_cons] at h
    cases hfa : f a with
    | error e =>
      rw [hfa, except_bind_err] at h
      exact absurd h (by simp)
    | ok b =>
      rw [hfa, except_bind_ok] at h
      cases hml : l.mapM f with
      | error e =>
        rw [hml, except_bind_err] at h
        exact absurd h (by simp)
      | ok bs =>
        rw [hml, except_bind_ok] at h
        have hout : out = b :: bs := by
          have h2 : Except.ok (ε := CfgErr) (b :: bs) = Except.ok out := h
          injection h2 with h3
          exact h3.symm
        rw [hout, List.map_cons]
        have hb : b = g a := hg a (List.mem_cons_self a l) b hfa
        rw [hb, ih bs hml (fun a2 ha2 => hg a2 (List.mem_cons_of_mem a ha2))]

theorem effectiveValue_of_none (u : J) (p : RegParam)
    (h : lookupPath u (splitPath p.path) = none) :
    effectiveValue u p = p.dflt := by
  simp [effectiveValue, h]

theorem effectiveValue_of_null (u : J) (p : RegParam)
    (h : lookupPath u (splitPath p.path) = some J.null) :
    effectiveValue u p = p.dflt := by
  simp [effectiveValue, h]

theorem effectiveValue_of_some (u : J) (p : RegParam) (v : J)
    (h : lookupPath u (splitPath p.path) = some v) (hv : v ≠ J.null) :
    effectiveValue u p = ((convertVal p.dflt v).toOption).getD p.dflt := by
  cases v with
  | null => exact absurd rfl hv
  | jb x => simp [effectiveValue, h]
  | ji x => simp [effectiveValue, h]
  | jf x => simp [effectiveValue, h]
  | js x => simp [effectiveValue, h]
  | obj fs => simp [effectiveValue, h]

theorem json_to_any_toJ?_scalar (v : J) (hv : scalarJ v = true) :
    (json_to_any v).toJ? = some v := by
  cases v with
  | null => simp [scalarJ] at hv
  | obj fs => simp [scalarJ] at hv
  | jb b => rfl
  | ji n => rfl
  | jf q => rfl
  | js s => rfl

theorem scalarJ_ne_null (v : J) (hv : scalarJ v = true) : v ≠ J.null := by
  intro he
  rw [he] at hv
  simp [scalarJ] at hv

theorem scalarJ_ne_obj (v : J) (hv : scalarJ v = true) :
    ∀ fs, v ≠ J.obj fs := by
  intro fs he
  rw [he] at hv
  simp [scalarJ] at hv

theorem cfgFinal_null (dflt : J) : cfgFinal dflt J.null = dflt := rfl

theorem cfgFinal_of_ne_null (dflt u : J) (h : u ≠ J.null) :
    cfgFinal dflt u = mergePatch dflt u := by
  cases u with
  | null => exact absurd rfl h
  | jb x => rfl
  | ji x => rfl
  | jf x => rfl
  | js x => rfl
  | obj fs => rfl

theorem lookupPath_null_cons (k : String) (rest : List String) :
    lookupPath J.null (k :: rest) = none := by
  simp [lookupPath]

/-- C9: after a successful initialize, every registered parameter's bound
value equals the typed value found at its dotted path in the processed
user configuration when that path holds a non-null value of the
registered type, and the registered default otherwise; and a flat dotted
top-level key is expanded into the corresponding nested objects, so it
configures exactly as the nested form does. -/
theorem config_param_binding (params : List RegParam) (userCfg u : J)
    (vals : List PVal) (final : J) (k1 k2 : String) (v : J)
    (hvalid : paramsValid params = true)
    (hwf : userCfg.wfKeys = true)
    (Hu : processUserConfig userCfg = Except.ok u)
    (H : initializeConfig params userCfg = Except.ok (vals, final))
    (hk1 : dotFreeKey k1 = true) (hk2 : dotFreeKey k2 = true)
    (hv : scalarJ v = true) :
    vals = params.map (effectiveValue u) ∧
    processUserConfig (J.obj [(k1 ++ "." ++ k2, v)]) =
      processUserConfig (J.obj [(k1, J.obj [(k2, v)])]) ∧
    ∀ ps : List RegParam,
      initializeConfig ps (J.obj [(k1 ++ "." ++ k2, v)]) =
        initializeConfig ps (J.obj [(k1, J.obj [(k2, v)])]) := by
  have hscal := json_to_any_toJ?_scalar v hv
  have hflat : processUserConfig (J.obj [(k1 ++ "." ++ k2, v)]) =
      Except.ok (J.obj [(k1, J.obj [(k2, v)])]) := by
    simp only [processUserConfig, processFields,
      splitPath_dotted k1 k2 hk1 hk2, setPath, hscal, jSetKey,
      except_bind_ok]
  have hnest : processUserConfig (J.obj [(k1, J.obj [(k2, v)])]) =
      Except.ok (J.obj [(k1, J.obj [(k2, v)])]) := by
    simp only [processUserConfig, processFields, splitPath_single k1 hk1,
      setPath, json_to_any, AnyVal.toJ?, except_bind_ok]
  refine ⟨?_, by rw [hflat, hnest],
    fun ps => by simp only [initializeConfig, hflat, hnest]⟩
  have hvv : (params.all fun p => !(splitPath p.path).isEmpty) = true ∧
      paramsIndependent params = true := by
    simpa [paramsValid, Bool.and_eq_true] using hvalid
  have hne_all : ∀ p ∈ params, splitPath p.path ≠ [] := by
    intro p hp he
    have h2 := List.all_eq_true.mp hvv.1 p hp
    rw [he] at h2
    simp at h2
  simp only [initializeConfig, Hu, except_bind_ok] at H
  cases hd : buildDefaultConfig params with
  | error e =>
    rw [hd] at H
    simp only [except_bind_err] at H
    simp at H
  | ok dflt =>
    rw [hd] at H
    simp only [except_bind_ok] at H
    cases hac : applyConfig (cfgFinal dflt u) params with
    | error e =>
      rw [hac] at H
      simp only [except_bind_err] at H
      simp at H
    | ok vs =>
      rw [hac] at H
      simp only [except_bind_ok] at H
      have hvals : vs = vals := by
        injection H with h2
        exact congrArg Prod.fst h2
      have hdwf : dflt.wfKeys = true := by
        refine buildFields_wf params J.null dflt ?_ (by simp [J.wfKeys])
        simpa [buildDefaultConfig] using hd
      have huwf : u.wfKeys = true := processUserConfig_wf userCfg u Hu hwf
      have hbase : ∀ p ∈ params,
          lookupPath dflt (splitPath p.path) = some (pValToJ p.dflt) := by
        have h3 := buildFields_lookup params J.null dflt
          (by simpa [buildDefaultConfig] using hd) hvv.2
        exact h3.1
      have hside : ∀ p ∈ params, ∀ b,
          getStep (cfgFinal dflt u) (splitPath p.path) p.dflt =
            Except.ok b →
          b = effectiveValue u p := by
        intro p hp b hb
        have hpne := hne_all p hp
        have hbp := hbase p hp
        by_cases hun : u = J.null
        · subst hun
          rw [cfgFinal_null] at hb
          have h4 := getStep_of_lookup (splitPath p.path) dflt p.dflt hbp hpne
          rw [hb] at h4
          have h5 : lookupPath J.null (splitPath p.path) = none := by
            cases hps : splitPath p.path with
            | nil => exact absurd hps hpne
            | cons a as => exact lookupPath_null_cons a as
          rw [effectiveValue_of_none J.null p h5]
          injection h4 with h6
        · rw [cfgFinal_of_ne_null dflt u hun] at hb
          cases hlu : lookupPath u (splitPath p.path) with
          | none =>
            have h4 := getStep_merge_of_lookup_none (splitPath p.path) dflt u
              p.dflt hlu hbp hdwf huwf hpne
            rw [hb] at h4
            rw [effectiveValue_of_none u p hlu]
            injection h4 with h6
          | some v0 =>
            by_cases hv0 : v0 = J.null
            · subst hv0
              have h4 := getStep_merge_of_lookup_null (splitPath p.path) dflt
                u p.dflt hlu hbp hdwf huwf hpne
              rw [hb] at h4
              rw [effectiveValue_of_null u p hlu]
              injection h4 with h6
            · have h4 := getStep_merge_of_lookup_some (splitPath p.path) dflt
                u p.dflt v0 hlu hv0 hbp hdwf huwf hpne
              rw [hb] at h4
              rw [effectiveValue_of_some u p v0 hlu hv0, ← h4]
              rfl
      have hmap := mapM_ok_map
        (fun p => getStep (cfgFinal dflt u) (splitPath p.path) p.dflt)
        (effectiveValue u) params vs
        (by simpa [applyConfig] using hac) hside
      rw [← hvals]
      exact hmap

theorem config_param_binding_witness :
    [PVal.vStr "Ricardo", PVal.vInt 30] =
      personParams.map (effectiveValue
        (J.obj [("age", J.ji 30), ("name", J.js "Ricardo")])) ∧
    processUserConfig (J.obj [("test_person" ++ "." ++ "name", J.js "John")]) =
      processUserConfig
        (J.obj [("test_person", J.obj [("name", J.js "John")])]) ∧
    ∀ ps : List RegParam,
      initializeConfig ps
          (J.obj [("test_person" ++ "." ++ "name", J.js "John")]) =
        initializeConfig ps
          (J.obj [("test_person", J.obj [("name", J.js "John")])]) :=
  config_param_binding personParams
    (J.obj [("age", J.ji 30), ("name", J.js "Ricardo")])
    (J.obj [("age", J.ji 30), ("name", J.js "Ricardo")])
    [PVal.vStr "Ricardo", PVal.vInt 30]
    (J.obj [("age", J.ji 30), ("name", J.js "Ricardo")])
    "test_person" "name" (J.js "John")
    (by decide)
    (by simp [J.wfKeys, jValuesWf, jSortedKeys, jAllKeysGt, strLtB, charsLt])
    rfl
    (by
      simp [initializeConfig, processUserConfig, processFields,
        buildDefaultConfig, buildFields, setPath, splitPath, splitPathChars,
        json_to_any, AnyVal.toJ?, pValToAny, personParams, jSetKey, jGetKey?,
        jGetD, jEraseKey, strLtB, charsLt, mergePatch, mergeFields, cfgFinal,
        applyConfig, getStep, getTyped, convertVal, except_bind_ok]
      rfl)
    (by decide) (by decide) (by decide)

/-- C7 counterexample: constructing the tailcuts cleaner from a
configuration containing only the unrecognized option name
"unknow_option" does not fail: initialize succeeds and every registered
parameter is assigned its default value. -/
theorem config_unknown_option_counterexample :
    cfgValues (initializeConfig tailcutsParams
      (J.obj [("unknow_option", J.ji 5)])) =
      some [PVal.vRat 10, PVal.vRat 5, PVal.vBool false, PVal.vInt 2] := by
  simp [initializeConfig, processUserConfig, processFields, buildDefaultConfig,
    buildFields, setPath, splitPath, splitPathChars, json_to_any, AnyVal.toJ?,
    pValToAny, tailcutsParams, jSetKey, jGetKey?, jGetD, jEraseKey, strLtB,
    charsLt, mergePatch, mergeFields, cfgFinal, applyConfig, getStep, getTyped,
    convertVal, cfgValues, except_bind_ok]
  rfl

/-- C7: corrected form — a configuration whose single top-level key is not
one of the registered tailcuts options is accepted silently rather than
rejected: initialize succeeds, every registered parameter keeps its
default value, and the unrecognized entry survives verbatim in the final
merged configuration. -/
theorem config_unknown_option_ignored (k : String) (v : J)
    (hk : dotFreeKey k = true) (hv : scalarJ v = true)
    (h1 : k ≠ "picture_thresh") (h2 : k ≠ "boundary_thresh")
    (h3 : k ≠ "keep_isolated_pixels")
    (h4 : k ≠ "min_number_picture_neighbors") :
    cfgValues (initializeConfig tailcutsParams (J.obj [(k, v)])) =
      some [PVal.vRat 10, PVal.vRat 5, PVal.vBool false, PVal.vInt 2] ∧
    cfgFinalAt (initializeConfig tailcutsParams (J.obj [(k, v)])) k =
      some v := by
  have hscal := json_to_any_toJ?_scalar v hv
  have hpu : processUserConfig (J.obj [(k, v)]) =
      Except.ok (J.obj [(k, v)]) := by
    simp only [processUserConfig, processFields, splitPath_single k hk,
      setPath, hscal, except_bind_ok]
  have hbd : buildDefaultConfig tailcutsParams = Except.ok (J.obj
      [("boundary_thresh", J.jf 5), ("keep_isolated_pixels", J.jb false),
       ("min_number_picture_neighbors", J.ji 2),
       ("picture_thresh", J.jf 10)]) := rfl
  have hmp : cfgFinal (J.obj
      [("boundary_thresh", J.jf 5), ("keep_isolated_pixels", J.jb false),
       ("min_number_picture_neighbors", J.ji 2),
       ("picture_thresh", J.jf 10)]) (J.obj [(k, v)]) =
      J.obj (jSetKey
        [("boundary_thresh", J.jf 5), ("keep_isolated_pixels", J.jb false),
         ("min_number_picture_neighbors", J.ji 2),
         ("picture_thresh", J.jf 10)] k v) := by
    rw [cfgFinal_of_ne_null _ _ (by simp)]
    rw [mergePatch_obj_obj]
    rw [mergeFields_cons_some _ k v [] (scalarJ_ne_null v hv)]
    rw [mergePatch_not_obj _ v (scalarJ_ne_obj v hv)]
    simp [mergeFields]
  have hgp : ∀ (name : String) (d : PVal), name ≠ k →
      jGetKey? [("boundary_thresh", J.jf 5),
        ("keep_isolated_pixels", J.jb false),
        ("min_number_picture_neighbors", J.ji 2),
        ("picture_thresh", J.jf 10)] name = some (pValToJ d) →
      getStep (J.obj (jSetKey
        [("boundary_thresh", J.jf 5), ("keep_isolated_pixels", J.jb false),
         ("min_number_picture_neighbors", J.ji 2),
         ("picture_thresh", J.jf 10)] k v)) [name] d = Except.ok d := by
    intro name d hne hget
    refine getStep_of_lookup [name] _ d ?_ (by simp)
    simp [lookupPath, jGetKey?_setKey_ne _ k v name hne, hget]
  have g1 := hgp "picture_thresh" (PVal.vRat 10) (Ne.symm h1) rfl
  have g2 := hgp "boundary_thresh" (PVal.vRat 5) (Ne.symm h2) rfl
  have g3 := hgp "keep_isolated_pixels" (PVal.vBool false) (Ne.symm h3) rfl
  have g4 := hgp "min_number_picture_neighbors" (PVal.vInt 2) (Ne.symm h4) rfl
  have hs1 : splitPath "picture_thresh" = ["picture_thresh"] := rfl
  have hs2 : splitPath "boundary_thresh" = ["boundary_thresh"] := rfl
  have hs3 : splitPath "keep_isolated_pixels" = ["keep_isolated_pixels"] := rfl
  have hs4 : splitPath "min_number_picture_neighbors" =
      ["min_number_picture_neighbors"] := rfl
  have happ : applyConfig (J.obj (jSetKey
      [("boundary_thresh", J.jf 5), ("keep_isolated_pixels", J.jb false),
       ("min_number_picture_neighbors", J.ji 2),
       ("picture_thresh", J.jf 10)] k v)) tailcutsParams =
      Except.ok [PVal.vRat 10, PVal.vRat 5, PVal.vBool false, PVal.vInt 2] := by
    simp only [applyConfig, tailcutsParams, List.mapM_cons, List.mapM_nil,
      hs1, hs2, hs3, hs4, g1, g2, g3, g4, except_bind_ok]
    all_goals rfl
  constructor
  · simp only [initializeConfig, hpu, except_bind_ok, hbd, hmp, happ,
      cfgValues]
  · simp only [initializeConfig, hpu, except_bind_ok, hbd, hmp, happ,
      cfgFinalAt]
    exact jGetKey?_setKey_self _ k v

theorem config_unknown_option_ignored_witness :
    (cfgValues (initializeConfig tailcutsParams
        (J.obj [("unknow_option", J.ji 5)])) =
      some [PVal.vRat 10, PVal.vRat 5, PVal.vBool false, PVal.vInt 2] ∧
    cfgFinalAt (initializeConfig tailcutsParams
        (J.obj [("unknow_option", J.ji 5)])) "unknow_option" =
      some (J.ji 5)) :=
  config_unknown_option_ignored "unknow_option" (J.ji 5) (by decide)
    (by decide) (by decide) (by decide) (by decide) (by decide)
